import Mathlib

/-!
Verification of the streaming grep core of `just-bash`
(`src/commands/grep/fast-grep.ts`).

The embedding works at byte level: a buffer is a `List Nat` of byte values,
and text decoding (`TextDecoder.decode`) / encoding (`TextEncoder.encode`)
are modelled as the identity on byte lists, so a `content` string is
represented by the byte list of its UTF-8 encoding.  The newline byte is
`0x0a`.  The `RegExp` pattern evaluator is an opaque external capability in
the source (spec section 9); it is modelled as a pair of functions: `test`
(does the line match) and `findAll` (the fragments extracted by the
`regex.exec` loop, in left-to-right order).
-/

namespace FastGrep

/-- The newline byte (`const NEWLINE = 0x0a`). -/
def NEWLINE : Nat := 10

/-- Opaque line-anchored pattern evaluator capability (the `RegExp` consumed
by the regex path).  `test` models `regex.test(line)`; `findAll` models the
fragment sequence produced by the `regex.exec` loop of `grepBufferRegex`. -/
structure RegexCap where
  test : List Nat → Bool
  findAll : List Nat → List (List Nat)

/-- `FastGrepOptions` from fast-grep.ts, with `pattern` as its byte encoding. -/
structure FastGrepOptions where
  pattern : List Nat
  regex : RegexCap
  isLiteral : Bool
  ignoreCase : Bool
  invertMatch : Bool
  wholeWord : Bool
  lineRegexp : Bool
  maxCount : Nat
  onlyMatching : Bool

/-- `GrepLineResult` from fast-grep.ts; `content` and the entries of the
optional `matches` field are byte lists of the corresponding strings.  The
field is called `matchesField` because `matches` is reserved in Lean. -/
structure GrepLineResult where
  lineNumber : Nat
  content : List Nat
  matchesField : Option (List Nat)
deriving DecidableEq

/-- One candidate start `i` matches the pattern byte-for-byte
(the inner `for j` loop of `findPatternPositions`, including the
first-byte comparison). -/
def matchesAt (chunk pattern : List Nat) (i : Nat) : Bool :=
  decide ((chunk.drop i).take pattern.length = pattern)

/-- `findPatternPositions` (fast-grep.ts lines 44-65): all starting offsets
where the literal pattern occurs, scanning candidate starts
`0 ≤ i < chunk.length - pattern.length + 1` left to right. -/
def findPatternPositions (chunk pattern : List Nat) : List Nat :=
  if pattern.length = 0 ∨ chunk.length < pattern.length then []
  else (List.range (chunk.length - pattern.length + 1)).filter (matchesAt chunk pattern)

/-- `toLowerAscii` (fast-grep.ts lines 99-102). -/
def toLowerAscii (b : Nat) : Nat :=
  if 65 ≤ b ∧ b ≤ 90 then b + 32 else b

/-- `findPatternPositionsIgnoreCase` (fast-grep.ts lines 70-97): the same
scan after folding both the pattern (pre-lowered once in the source) and
each candidate window through `toLowerAscii`. -/
def findPatternPositionsIgnoreCase (chunk pattern : List Nat) : List Nat :=
  if pattern.length = 0 ∨ chunk.length < pattern.length then []
  else (List.range (chunk.length - pattern.length + 1)).filter
    (matchesAt (chunk.map toLowerAscii) (pattern.map toLowerAscii))

/-- `isWordByte` (fast-grep.ts lines 107-114). -/
def isWordByte (b : Nat) : Bool :=
  decide ((48 ≤ b ∧ b ≤ 57) ∨ (65 ≤ b ∧ b ≤ 90) ∨ (97 ≤ b ∧ b ≤ 122) ∨ b = 95)

/-- `isWordBoundary` (fast-grep.ts lines 116-125). -/
def isWordBoundary (chunk : List Nat) (pos patternLen : Nat) : Bool :=
  (decide (pos = 0) || !isWordByte (chunk.getD (pos - 1) 0)) &&
  (decide (pos + patternLen ≥ chunk.length) || !isWordByte (chunk.getD (pos + patternLen) 0))

/-- Backward scan of `extractLineAt`: `while (start > 0 && chunk[start-1] !== NEWLINE) start--`. -/
def lineStartFrom (chunk : List Nat) : Nat → Nat
  | 0 => 0
  | s + 1 => if chunk.getD s 0 = NEWLINE then s + 1 else lineStartFrom chunk s

/-- Forward scan of `extractLineAt`: `while (end < chunk.length && chunk[end] !== NEWLINE) end++`. -/
def lineEndFrom (chunk : List Nat) (pos : Nat) : Nat :=
  pos + ((chunk.drop pos).takeWhile (fun b => b != NEWLINE)).length

/-- Return value of `extractLineAt` (the source's `end` field is `stop` here,
since `end` is a Lean keyword). -/
structure ExtractedLine where
  start : Nat
  stop : Nat
  content : List Nat

/-- `extractLineAt` (fast-grep.ts lines 130-142); decoding the slice is the
identity at byte level. -/
def extractLineAt (chunk : List Nat) (pos : Nat) : ExtractedLine :=
  let s := lineStartFrom chunk pos
  let e := lineEndFrom chunk pos
  ⟨s, e, (chunk.drop s).take (e - s)⟩

/-- `countNewlines` (fast-grep.ts lines 147-153): newline bytes in the
half-open index range `[start, stop)`. -/
def countNewlines (chunk : List Nat) (start stop : Nat) : Nat :=
  ((chunk.drop start).take (stop - start)).count NEWLINE

/-- One entry of the `lineMatches` map of `grepBufferLiteral` (line 176). -/
structure LineAcc where
  lineNumber : Nat
  content : List Nat
  positions : List Nat

/-- The `lineMatches` map update of `grepBufferLiteral` (lines 207-214):
create the entry on first match for the line, then push the
line-relative offset.  The map is insertion-ordered, modelled as a list. -/
def accInsert (acc : List LineAcc) (n : Nat) (content : List Nat) (off : Nat) : List LineAcc :=
  if acc.any (fun e => e.lineNumber == n) then
    acc.map (fun e => if e.lineNumber = n then { e with positions := e.positions ++ [off] } else e)
  else acc ++ [⟨n, content, [off]⟩]

/-- Byte-wise rendering of the fast-forward loop of `grepBufferLiteral`
(lines 185-190).  The source jumps between newlines with `indexOf`; scanning
the bytes of indices `[i, pos)` one at a time performs the same advance:
every newline at an index `< pos` moves the current line start just past it
and increments the line number. -/
def fastForwardGo (pos : Nat) : List Nat → Nat → Nat → Nat → Nat × Nat
  | [], _, cls, cln => (cls, cln)
  | b :: rest, i, cls, cln =>
    if i < pos then
      if b = NEWLINE then fastForwardGo pos rest (i + 1) (i + 1) (cln + 1)
      else fastForwardGo pos rest (i + 1) cls cln
    else (cls, cln)

/-- Fast-forward `currentLineStart`/`currentLineNum` to the line containing
`pos` (fast-grep.ts lines 185-190). -/
def fastForward (buffer : List Nat) (pos cls cln : Nat) : Nat × Nat :=
  fastForwardGo pos (buffer.drop cls) cls cls cln

/-- The `for (const pos of positions)` loop of `grepBufferLiteral`
(lines 183-217), accumulating the `lineMatches` map; stops early once
`lineMatches.size` reaches a positive `maxCount`. -/
def fwdLoop (buffer : List Nat) (options : FastGrepOptions) :
    List Nat → Nat → Nat → List LineAcc → List LineAcc
  | [], _, _, acc => acc
  | pos :: rest, cls, cln, acc =>
    let st := fastForward buffer pos cls cln
    if options.wholeWord ∧ ¬ isWordBoundary buffer pos options.pattern.length then
      fwdLoop buffer options rest st.1 st.2 acc
    else
      let line := extractLineAt buffer pos
      if options.lineRegexp ∧ line.content ≠ options.pattern then
        fwdLoop buffer options rest st.1 st.2 acc
      else
        let acc' := accInsert acc st.2 line.content (pos - line.start)
        if options.maxCount > 0 ∧ acc'.length ≥ options.maxCount then acc'
        else fwdLoop buffer options rest st.1 st.2 acc'

/-- Split a byte list at newline bytes, one part per line, like
`content.split('\n')` on the decoded text (a newline byte never occurs
inside a multi-byte UTF-8 sequence, so the byte-level split agrees). -/
def splitOnNL : List Nat → List (List Nat)
  | [] => [[]]
  | b :: rest =>
    if b = NEWLINE then [] :: splitOnNL rest
    else
      match splitOnNL rest with
      | [] => [[b]]
      | h :: t => (b :: h) :: t

/-- The sequence of lines visited by the `while (lineStart < buffer.length)`
loops of `grepBufferInvert` (lines 252, 275): every split part except a
trailing empty one (which corresponds to `lineStart` having reached
`buffer.length`). -/
def linesOf (buffer : List Nat) : List (List Nat) :=
  let parts := splitOnNL buffer
  if parts.getLast? = some [] then parts.dropLast else parts

/-- `matchSet.add`, with the `Set` modelled as a duplicate-free list in
insertion order. -/
def insertOnce (s : List Nat) (n : Nat) : List Nat :=
  if n ∈ s then s else s ++ [n]

/-- First loop of `grepBufferInvert` (lines 252-268): walk the lines in
order, consuming the ascending `matchPositions`; a position belonging to the
current line (`lineStart ≤ p < actualEnd`) adds the line number to the match
set.  The loop also stops when the positions are exhausted.  `lineStart` is
carried numerically; `actualEnd = lineStart + line.length` is the newline
index (or the buffer length for a final unterminated line). -/
def msLoop : List (List Nat) → Nat → Nat → List Nat → List Nat → List Nat
  | [], _, _, _, ms => ms
  | line :: rest, lineStart, lineNum, positions, ms =>
    if positions = [] then ms
    else
      let actualEnd := lineStart + line.length
      let consumed := positions.takeWhile (fun p => decide (p < actualEnd))
      let ms' := consumed.foldl (fun s p => if lineStart ≤ p then insertOnce s lineNum else s) ms
      msLoop rest (actualEnd + 1) (lineNum + 1)
        (positions.dropWhile (fun p => decide (p < actualEnd))) ms'

/-- Second loop of `grepBufferInvert` (lines 275-289): emit every line whose
number is not in the match set, stopping once a positive `maxCount` is
reached.  The emitted content is the line's byte slice. -/
def invertCollect (matchSet : List Nat) (options : FastGrepOptions) :
    List (List Nat) → Nat → Nat → List GrepLineResult → List GrepLineResult
  | [], _, _, results => results
  | line :: rest, lineNum, matchCount, results =>
    if lineNum ∉ matchSet then
      let results' := results ++ [⟨lineNum, line, none⟩]
      if options.maxCount > 0 ∧ matchCount + 1 ≥ options.maxCount then results'
      else invertCollect matchSet options rest (lineNum + 1) (matchCount + 1) results'
    else invertCollect matchSet options rest (lineNum + 1) matchCount results

/-- `grepBufferInvert` (fast-grep.ts lines 239-292). -/
def grepBufferInvert (buffer : List Nat) (matchPositions : List Nat)
    (options : FastGrepOptions) : List GrepLineResult :=
  invertCollect (msLoop (linesOf buffer) 0 1 matchPositions []) options (linesOf buffer) 1 0 []

/-- `grepBufferLiteral` (fast-grep.ts lines 158-234).  `patternBytes` is
`options.pattern` itself, since patterns are already byte lists here. -/
def grepBufferLiteral (buffer : List Nat) (options : FastGrepOptions) : List GrepLineResult :=
  let positions :=
    if options.ignoreCase then findPatternPositionsIgnoreCase buffer options.pattern
    else findPatternPositions buffer options.pattern
  if options.invertMatch then grepBufferInvert buffer positions options
  else
    (fwdLoop buffer options positions 0 1 []).map fun m =>
      if options.onlyMatching then ⟨m.lineNumber, options.pattern, none⟩
      else ⟨m.lineNumber, m.content, none⟩

/-- The line array of `grepBufferRegex` (lines 301-306): split on newlines
and pop the trailing empty artifact when the content ends with a newline. -/
def linesForRegex (buffer : List Nat) : List (List Nat) :=
  let ls := splitOnNL buffer
  if buffer.getLast? = some NEWLINE then ls.dropLast else ls

/-- The `for (let i = 0; ...)` loop of `grepBufferRegex` (lines 313-336):
a line is selected iff `hasMatch ≠ invertMatch`; with `onlyMatching` and not
inverted, one result per extracted fragment, otherwise one full-line result;
`matchCount` increments once per selected line and stops the loop at a
positive `maxCount`. -/
def grepRegexGo (options : FastGrepOptions) : List (List Nat) → Nat → Nat → List GrepLineResult
  | [], _, _ => []
  | line :: rest, i, matchCount =>
    let hasMatch := options.regex.test line
    if hasMatch ≠ options.invertMatch then
      let emitted :=
        if options.onlyMatching ∧ ¬ options.invertMatch then
          (options.regex.findAll line).map (fun m => ⟨i + 1, m, none⟩)
        else [⟨i + 1, line, none⟩]
      if options.maxCount > 0 ∧ matchCount + 1 ≥ options.maxCount then emitted
      else emitted ++ grepRegexGo options rest (i + 1) (matchCount + 1)
    else grepRegexGo options rest (i + 1) matchCount

/-- `grepBufferRegex` (fast-grep.ts lines 297-339). -/
def grepBufferRegex (buffer : List Nat) (options : FastGrepOptions) : List GrepLineResult :=
  grepRegexGo options (linesForRegex buffer) 0 0

/-- Index of the last newline byte (`buffer.lastIndexOf(NEWLINE)`), `none`
standing for the source's `-1`. -/
def lastNL : List Nat → Option Nat
  | [] => none
  | b :: rest =>
    match lastNL rest with
    | some k => some (k + 1)
    | none => if b = NEWLINE then some 0 else none

/-- The scanner selection of `grepStream` (lines 362-364 and 387-389). -/
def scanBuffer (buffer : List Nat) (options : FastGrepOptions) : List GrepLineResult :=
  if options.isLiteral then grepBufferLiteral buffer options else grepBufferRegex buffer options

/-- The result-delivery loop of `grepStream` (lines 366-370 and 391-401):
shift each line number by the running line offset, deliver it through
`onResult` (collected in the first component), count it, and stop (third
component `true`) once a positive `maxCount` is reached.  The second
component is the updated `matchCount`. -/
def emitRegion (maxCount lineOffset : Nat) :
    List GrepLineResult → Nat → List GrepLineResult × Nat × Bool
  | [], matchCount => ([], matchCount, false)
  | r :: rest, matchCount =>
    let r' : GrepLineResult := { r with lineNumber := r.lineNumber + lineOffset }
    if maxCount > 0 ∧ matchCount + 1 ≥ maxCount then ([r'], matchCount + 1, true)
    else
      let out := emitRegion maxCount lineOffset rest (matchCount + 1)
      (r' :: out.1, out.2.1, out.2.2)

/-- Outcome of `grepStream`: the sequence of `onResult` invocations together
with the returned `{ matchCount, lineCount }`. -/
structure StreamOutcome where
  results : List GrepLineResult
  matchCount : Nat
  lineCount : Nat
deriving DecidableEq

/-- The `while (true)` read loop of `grepStream` (fast-grep.ts lines
356-405), one recursive step per `reader.read()`.  The chunk list models the
byte stream; exhausting it is the `done` branch (lines 359-373), which scans
a non-empty remainder once and returns `lineOffset + 1` as the line count
(line 410).  A read appends the chunk, and if the grown buffer contains a
newline, the region up to and including the last newline is scanned, its
results are delivered shifted by `lineOffset`, an early `return` happens if
`maxCount` is reached (lines 394-400), and otherwise the line offset
advances by the region's newline count and only the bytes after the last
newline are retained. -/
def grepStreamGo (options : FastGrepOptions) :
    List (List Nat) → List Nat → Nat → Nat → StreamOutcome
  | [], buffer, lineOffset, matchCount =>
    if buffer.length > 0 then
      let out := emitRegion options.maxCount lineOffset (scanBuffer buffer options) matchCount
      ⟨out.1, out.2.1, lineOffset + 1⟩
    else ⟨[], matchCount, lineOffset⟩
  | value :: rest, buffer, lineOffset, matchCount =>
    let buf' := buffer ++ value
    match lastNL buf' with
    | none => grepStreamGo options rest buf' lineOffset matchCount
    | some k =>
      let complete := buf'.take (k + 1)
      let carry := buf'.drop (k + 1)
      let out := emitRegion options.maxCount lineOffset (scanBuffer complete options) matchCount
      if out.2.2 then ⟨out.1, out.2.1, lineOffset + countNewlines complete 0 complete.length⟩
      else
        let next := grepStreamGo options rest carry
          (lineOffset + countNewlines complete 0 complete.length) out.2.1
        ⟨out.1 ++ next.results, next.matchCount, next.lineCount⟩

/-- `grepStream` (fast-grep.ts lines 344-411) on a stream delivered as the
given list of chunks. -/
def grepStream (options : FastGrepOptions) (chunks : List (List Nat)) : StreamOutcome :=
  grepStreamGo options chunks [] 0 0

/-- Byte list of an ASCII string, for concrete test inputs. -/
def strBytes (s : String) : List Nat :=
  s.data.map Char.toNat

/-- The property "the pattern's bytes occur contiguously at offset `p`"
(claim C7). -/
def patternOccursAt (chunk pattern : List Nat) (p : Nat) : Prop :=
  p + pattern.length ≤ chunk.length ∧ (chunk.drop p).take pattern.length = pattern

instance (chunk pattern : List Nat) (p : Nat) : Decidable (patternOccursAt chunk pattern p) :=
  inferInstanceAs (Decidable (p + pattern.length ≤ chunk.length ∧
    (chunk.drop p).take pattern.length = pattern))

/-- Line count of a whole buffer as stated by claim C2 (spec section 4.6):
the number of newline bytes, plus one if the buffer ends with a non-empty
line that has no trailing newline.  This is the specification side of the
C2 refinement; the implementation side is `grepStream`. -/
def specLineCount (b : List Nat) : Nat :=
  b.count NEWLINE + (if b ≠ [] ∧ b.getLast? ≠ some NEWLINE then 1 else 0)

/-- Proof device for the invert-complement analysis: `inLines lines s m p n`
says that byte offset `p` falls inside one of the given lines, where the
first line starts at offset `s` and carries line number `m`, each line is
followed by one newline byte, and `n` is the number of the line containing
`p`.  Offsets equal to a newline byte or past the end of the lines are in
no line. -/
def inLines : List (List Nat) → Nat → Nat → Nat → Nat → Prop
  | [], _, _, _, _ => False
  | line :: rest, lineStart, lineNum, p, n =>
    (lineStart ≤ p ∧ p < lineStart + line.length ∧ n = lineNum) ∨
      inLines rest (lineStart + line.length + 1) (lineNum + 1) p n


/-! ### Concrete fixtures used by witnesses and counterexamples -/

/-- A trivial pattern evaluator that matches nothing (unused on the literal path). -/
def noCap : RegexCap := ⟨fun _ => false, fun _ => []⟩

/-- Literal-path options with every policy flag off and `maxCount = 0`. -/
def optsLit (pat : List Nat) : FastGrepOptions :=
  ⟨pat, noCap, true, false, false, false, false, 0, false⟩

/-- A pattern evaluator that matches every line, the empty line included
(as e.g. the regular expression `x*` would). -/
def capAlways : RegexCap := ⟨fun _ => true, fun _ => []⟩

/-- A pattern evaluator behaving like the regular expression `a` on ASCII
lines: a line matches iff it contains byte 97, and the extracted fragments
are one `"a"` per occurrence. -/
def capLetterA : RegexCap :=
  ⟨fun l => l.contains 97, fun l => (l.filter (fun b => b == 97)).map (fun _ => [97])⟩

/-- Options used by the C8 witness: literal pattern `"a"`, `maxCount = 1`. -/
def optsA1 : FastGrepOptions :=
  { optsLit (strBytes "a") with maxCount := 1 }

/-- Options used by the C1 counterexample: evaluator `capLetterA`,
`onlyMatching` set, `maxCount = 1`. -/
def optsOnlyA : FastGrepOptions :=
  ⟨[97], capLetterA, false, false, false, false, false, 1, true⟩

/-- Options used by the C1 witness: literal pattern `"xx"`, `maxCount = 1`. -/
def optsXX1 : FastGrepOptions :=
  { optsLit (strBytes "xx") with maxCount := 1 }


/-! ### Basic facts about the helper scanners -/

theorem countNewlines_whole (l : List Nat) :
    countNewlines l 0 l.length = l.count NEWLINE := by
  simp [countNewlines]

theorem lastNL_eq_none_iff {l : List Nat} : lastNL l = none ↔ NEWLINE ∉ l := by
  induction l with
  | nil => simp [lastNL]
  | cons b rest ih =>
    simp only [lastNL, List.mem_cons]
    cases h : lastNL rest with
    | some k =>
      have hmem : NEWLINE ∈ rest := by
        by_contra hnm
        rw [ih.mpr hnm] at h
        cases h
      simp [hmem]
    | none =>
      by_cases hb : b = NEWLINE
      · simp [hb]
      · simp [ih.mp h, Ne.symm hb, hb]

theorem findPatternPositions_nil (pattern : List Nat) :
    findPatternPositions [] pattern = [] := by
  rcases pattern with _ | ⟨b, p⟩ <;> simp [findPatternPositions]

theorem findPatternPositionsIgnoreCase_nil (pattern : List Nat) :
    findPatternPositionsIgnoreCase [] pattern = [] := by
  rcases pattern with _ | ⟨b, p⟩ <;> simp [findPatternPositionsIgnoreCase]

theorem linesOf_nil : linesOf [] = [] := by
  simp [linesOf, splitOnNL]

/-! ### C3: chunk-boundary carry-over -/

/-- C3: a literal match spanning a chunk boundary inside a line is reported
exactly once.  The stream delivering `"partial"` then `"line\n"` with
literal pattern `"partialline"` and all policy flags off produces exactly
one `onMatch` invocation, with line number 1 and content `"partialline"`,
and returns `matchCount = 1` (bytes after the last newline are carried over
and only newline-terminated regions are scanned). -/
theorem stream_chunk_boundary_single_match :
    grepStream (optsLit (strBytes "partialline")) [strBytes "partial", strBytes "line\n"] =
      ⟨[⟨1, strBytes "partialline", none⟩], 1, 1⟩ := by decide

/-! ### C10: streams that deliver no bytes -/

/-- C10: a byte source that signals end-of-data having delivered no bytes
(or only empty chunks) makes `grepStream` return `matchCount = 0` and
`lineCount = 0` without ever invoking `onMatch` (the result list is empty),
for every option combination; the buffer scanners are never reached because
the carry-over buffer stays empty. -/
theorem stream_empty_input (options : FastGrepOptions) (chunks : List (List Nat))
    (h : ∀ c ∈ chunks, c = []) : grepStream options chunks = ⟨[], 0, 0⟩ := by
  show grepStreamGo options chunks [] 0 0 = ⟨[], 0, 0⟩
  induction chunks with
  | nil => simp [grepStreamGo]
  | cons c rest ih =>
    have hc : c = [] := h c (List.mem_cons_self c rest)
    have hr : ∀ x ∈ rest, x = [] := fun x hx => h x (List.mem_cons_of_mem c hx)
    simpa [grepStreamGo, hc, lastNL] using ih hr

theorem stream_empty_input_witness :
    grepStream (optsLit [120]) [[], []] = ⟨[], 0, 0⟩ :=
  stream_empty_input (optsLit [120]) [[], []] (by decide)

/-! ### C5: the matches field of returned results -/

/-- C5 counterexample: on buffer `"foo\n"` with pattern `"foo"` (literal
forward path, all flags off) the scan returns one result for the matched
line, but that result does not carry the ordered occurrence offsets of the
pattern within the line (its `matches` field is absent/`none`), refuting
the claim that every matched-line result carries them. -/
theorem matchesField_not_populated_cex :
    ((grepBufferLiteral (strBytes "foo\n") (optsLit (strBytes "foo"))).all
      (fun r => r.matchesField == some (findPatternPositions r.content (strBytes "foo")))) = false
    ∧ (grepBufferLiteral (strBytes "foo\n") (optsLit (strBytes "foo"))).length = 1 := by decide

theorem invertCollect_matchesField_none (matchSet : List Nat) (options : FastGrepOptions) :
    ∀ (lines : List (List Nat)) (lineNum matchCount : Nat) (results : List GrepLineResult),
      (∀ r ∈ results, r.matchesField = none) →
      ∀ r ∈ invertCollect matchSet options lines lineNum matchCount results,
        r.matchesField = none := by
  intro lines
  induction lines with
  | nil =>
    intro ln mc res hres r hr
    simp only [invertCollect] at hr
    exact hres r hr
  | cons line rest ih =>
    intro ln mc res hres r hr
    have hres' : ∀ s ∈ res ++ [(⟨ln, line, none⟩ : GrepLineResult)], s.matchesField = none := by
      intro s hs
      rcases List.mem_append.mp hs with hs | hs
      · exact hres s hs
      · simp only [List.mem_singleton] at hs
        subst hs; rfl
    simp only [invertCollect] at hr
    split at hr
    · split at hr
      · exact hres' r hr
      · exact ih _ _ _ hres' r hr
    · exact ih _ _ _ hres r hr

/-- C5 (amended): the literal path records occurrence offsets only in its
internal per-line accumulator; the returned `LineResult`s never carry them
— every result of `grepBufferLiteral` (forward or inverted) has an absent
(`none`) matches field, so the offsets are not available to the caller. -/
theorem matchesField_none_amended (buffer : List Nat) (options : FastGrepOptions)
    (r : GrepLineResult) (hr : r ∈ grepBufferLiteral buffer options) :
    r.matchesField = none := by
  simp only [grepBufferLiteral] at hr
  split at hr
  · exact invertCollect_matchesField_none _ options _ _ _ _ (by simp) r hr
  · rcases List.mem_map.mp hr with ⟨m, _, rfl⟩
    split <;> rfl

theorem matchesField_none_amended_witness :
    (⟨1, strBytes "foo", none⟩ : GrepLineResult).matchesField = none :=
  matchesField_none_amended (strBytes "foo\n") (optsLit (strBytes "foo"))
    ⟨1, strBytes "foo", none⟩ (by decide)

/-! ### C6: empty buffer -/

/-- C6 counterexample: `grepBufferRegex` on the empty buffer with an
evaluator that matches the empty string (as e.g. `x*` would) and
`invertMatch = false` returns one result — the empty buffer is treated as
one empty line — refuting "both scanners return zero results on the empty
buffer for every option combination". -/
theorem regex_empty_buffer_cex :
    grepBufferRegex [] ⟨[], capAlways, false, false, false, false, false, 0, false⟩ =
      [⟨1, [], none⟩]
    ∧ ([⟨1, [], none⟩] : List GrepLineResult) ≠ [] := by decide

/-- C6 (amended): `grepBufferLiteral` returns zero results on the empty
buffer for every option combination.  `grepBufferRegex` treats the empty
buffer as a single empty line, so it returns zero results exactly when the
evaluator's verdict on the empty line equals `invertMatch` — in particular
whenever the pattern does not match the empty string and `invertMatch` is
off. -/
theorem empty_buffer_amended (options : FastGrepOptions) :
    grepBufferLiteral [] options = []
    ∧ (options.regex.test [] = options.invertMatch → grepBufferRegex [] options = []) := by
  constructor
  · simp only [grepBufferLiteral, findPatternPositions_nil,
      findPatternPositionsIgnoreCase_nil, ite_self]
    split
    · simp [grepBufferInvert, linesOf_nil, msLoop, invertCollect]
    · simp [fwdLoop]
  · intro ht
    simp [grepBufferRegex, linesForRegex, splitOnNL, grepRegexGo, ht]

theorem empty_buffer_amended_witness :
    grepBufferLiteral [] (optsLit [102]) = [] ∧ grepBufferRegex [] (optsLit [102]) = [] :=
  ⟨(empty_buffer_amended (optsLit [102])).1,
   (empty_buffer_amended (optsLit [102])).2 (by decide)⟩

/-! ### C2: chunk-boundary independent line counting -/

theorem emitRegion_zero_not_stopped (off : Nat) :
    ∀ (rs : List GrepLineResult) (mc : Nat), (emitRegion 0 off rs mc).2.2 = false := by
  intro rs
  induction rs with
  | nil => intro mc; rfl
  | cons r rest ih =>
    intro mc
    simp only [emitRegion]
    rw [if_neg (by simp)]
    exact ih (mc + 1)

theorem lastNL_lt_length : ∀ {l : List Nat} {k : Nat}, lastNL l = some k → k < l.length := by
  intro l
  induction l with
  | nil => intro k h; cases h
  | cons b rest ih =>
    intro k h
    cases hr : lastNL rest with
    | some k' =>
      simp only [lastNL, hr] at h
      cases h
      exact Nat.succ_lt_succ (ih hr)
    | none =>
      simp only [lastNL, hr] at h
      by_cases hb : b = NEWLINE
      · rw [if_pos hb] at h; cases h; simp
      · rw [if_neg hb] at h; cases h

theorem lastNL_drop_not_mem : ∀ {l : List Nat} {k : Nat},
    lastNL l = some k → NEWLINE ∉ l.drop (k + 1) := by
  intro l
  induction l with
  | nil => intro k h; cases h
  | cons b rest ih =>
    intro k h
    cases hr : lastNL rest with
    | some k' =>
      simp only [lastNL, hr] at h
      cases h
      simpa using ih hr
    | none =>
      simp only [lastNL, hr] at h
      by_cases hb : b = NEWLINE
      · rw [if_pos hb] at h
        cases h
        simpa using lastNL_eq_none_iff.mp hr
      · rw [if_neg hb] at h; cases h

theorem lastNL_take_getLast : ∀ {l : List Nat} {k : Nat},
    lastNL l = some k → (l.take (k + 1)).getLast? = some NEWLINE := by
  intro l
  induction l with
  | nil => intro k h; cases h
  | cons b rest ih =>
    intro k h
    cases hr : lastNL rest with
    | some k' =>
      simp only [lastNL, hr] at h
      cases h
      have hk' := lastNL_lt_length hr
      cases rest with
      | nil => simp at hk'
      | cons r0 rest' =>
        show (b :: r0 :: List.take k' rest').getLast? = some NEWLINE
        rw [List.getLast?_cons_cons]
        exact ih hr
    | none =>
      simp only [lastNL, hr] at h
      by_cases hb : b = NEWLINE
      · rw [if_pos hb] at h
        cases h
        subst hb
        rfl
      · rw [if_neg hb] at h; cases h

theorem specLineCount_no_newline {b : List Nat} (h : NEWLINE ∉ b) :
    specLineCount b = if b = [] then 0 else 1 := by
  unfold specLineCount
  rw [List.count_eq_zero.mpr h]
  cases b with
  | nil => simp
  | cons x xs =>
    have hgl : (x :: xs).getLast? ≠ some NEWLINE := by
      intro hgl
      exact h (List.mem_of_mem_getLast? hgl)
    simp [hgl]

theorem specLineCount_append_of_getLast_newline {c : List Nat}
    (hc : c.getLast? = some NEWLINE) (X : List Nat) :
    specLineCount (c ++ X) = c.count NEWLINE + specLineCount X := by
  by_cases hX : X = []
  · subst hX
    simp [specLineCount, hc]
  · unfold specLineCount
    rw [List.count_append, List.getLast?_append_of_ne_nil _ hX]
    have h1 : c ++ X ≠ [] := by simp [hX]
    simp only [h1, hX, ne_eq, not_false_iff, true_and]
    rw [Nat.add_assoc]

theorem streamGo_lineCount (options : FastGrepOptions) (hmax : options.maxCount = 0) :
    ∀ (chunks : List (List Nat)) (buffer : List Nat) (off mc : Nat),
      NEWLINE ∉ buffer →
      (grepStreamGo options chunks buffer off mc).lineCount =
        off + specLineCount (buffer ++ chunks.flatten) := by
  intro chunks
  induction chunks with
  | nil =>
    intro buffer off mc hb
    simp only [grepStreamGo, List.flatten_nil, List.append_nil]
    by_cases h : buffer.length > 0
    · rw [if_pos h]
      have h1 : specLineCount buffer = 1 := by
        rw [specLineCount_no_newline hb,
          if_neg (by intro he; rw [he] at h; simp at h)]
      simp [h1]
    · rw [if_neg h]
      have hbe : buffer = [] := List.length_eq_zero.mp (by omega)
      subst hbe
      simp [specLineCount]
  | cons value rest ih =>
    intro buffer off mc hb
    simp only [grepStreamGo]
    cases hk : lastNL (buffer ++ value) with
    | none =>
      simp only [hk]
      rw [ih (buffer ++ value) off mc (lastNL_eq_none_iff.mp hk)]
      rw [List.flatten_cons, ← List.append_assoc]
    | some k =>
      simp only [hk]
      have hstop : (emitRegion options.maxCount off
          (scanBuffer ((buffer ++ value).take (k + 1)) options) mc).2.2 = false := by
        rw [hmax]; exact emitRegion_zero_not_stopped off _ mc
      simp only [hstop, Bool.false_eq_true, if_false]
      have hcarry : NEWLINE ∉ (buffer ++ value).drop (k + 1) := lastNL_drop_not_mem hk
      rw [ih _ _ _ hcarry]
      rw [countNewlines_whole]
      have hgl : ((buffer ++ value).take (k + 1)).getLast? = some NEWLINE :=
        lastNL_take_getLast hk
      have hsplit : buffer ++ (value :: rest).flatten =
          (buffer ++ value).take (k + 1) ++ ((buffer ++ value).drop (k + 1) ++ rest.flatten) := by
        rw [List.flatten_cons, ← List.append_assoc, ← List.append_assoc,
          List.take_append_drop]
      rw [hsplit, specLineCount_append_of_getLast_newline hgl]
      omega

/-- C2: with `maxCount = 0`, the `lineCount` reported by `grepStream` is a
function of the concatenation of the delivered chunks alone — so it is the
same for every partition of a buffer into chunks — and equals the line
count of the whole buffer: the number of newline bytes plus one if the
buffer ends with a non-empty line that has no trailing newline
(`specLineCount`). -/
theorem stream_lineCount_chunk_independent (options : FastGrepOptions)
    (chunks : List (List Nat)) (hmax : options.maxCount = 0) :
    (grepStream options chunks).lineCount = specLineCount chunks.flatten := by
  show (grepStreamGo options chunks [] 0 0).lineCount = specLineCount chunks.flatten
  rw [streamGo_lineCount options hmax chunks [] 0 0 (by simp)]
  simp

theorem stream_lineCount_chunk_independent_witness :
    (grepStream (optsLit [97]) [[97, 10], [98]]).lineCount = specLineCount [97, 10, 98] := by
  have h := stream_lineCount_chunk_independent (optsLit [97]) [[97, 10], [98]] rfl
  simpa using h

/-! ### C8: early termination at maxCount inside a complete region -/

theorem emitRegion_count (maxCount off : Nat) :
    ∀ (rs : List GrepLineResult) (mc : Nat),
      (emitRegion maxCount off rs mc).2.1 = mc + (emitRegion maxCount off rs mc).1.length := by
  intro rs
  induction rs with
  | nil => intro mc; simp [emitRegion]
  | cons r rest ih =>
    intro mc
    simp only [emitRegion]
    split
    · simp
    · simp only [List.length_cons]
      rw [ih (mc + 1)]
      omega

/-- C8: when delivering the results of a newline-terminated complete region
reaches a positive `maxCount` (third `emitRegion` component `true`),
`grepStream` stops immediately: the outcome is independent of the remaining
chunks (no further reads and no further result processing), the returned
match count is the count accumulated so far (`matchCount` plus the emitted
results), and the returned line count is the running line offset plus the
newlines of the region just consumed. -/
theorem stream_maxCount_early_stop (options : FastGrepOptions)
    (buffer value : List Nat) (rest : List (List Nat)) (lineOffset matchCount k : Nat)
    (hm : 0 < options.maxCount)
    (hk : lastNL (buffer ++ value) = some k)
    (hstop : (emitRegion options.maxCount lineOffset
        (scanBuffer ((buffer ++ value).take (k + 1)) options) matchCount).2.2 = true) :
    grepStreamGo options (value :: rest) buffer lineOffset matchCount =
      ⟨(emitRegion options.maxCount lineOffset
          (scanBuffer ((buffer ++ value).take (k + 1)) options) matchCount).1,
       matchCount + (emitRegion options.maxCount lineOffset
          (scanBuffer ((buffer ++ value).take (k + 1)) options) matchCount).1.length,
       lineOffset + ((buffer ++ value).take (k + 1)).count NEWLINE⟩ := by
  simp only [grepStreamGo, hk, hstop, if_true, countNewlines_whole]
  rw [emitRegion_count]

theorem stream_maxCount_early_stop_witness :
    grepStreamGo optsA1 [strBytes "a\na\n", [99, 10]] [] 0 0 =
      ⟨[⟨1, [97], none⟩], 1, 2⟩ := by
  have h := stream_maxCount_early_stop optsA1 [] (strBytes "a\na\n") [[99, 10]] 0 0 3
    (by decide) (by decide) (by decide)
  exact h.trans (by decide)

/-! ### C1: the maxCount cap -/

/-- C1 counterexample: `grepBufferRegex` on buffer `"aa\n"` with an
evaluator behaving like the pattern `a`, `onlyMatching` set and
`maxCount = 1`, returns two results — `matchCount` is incremented once per
selected line, not per emitted result, so the fragment results of the
capping line are all emitted.  This refutes "scanRegex returns at most k
results even when onlyMatching causes several fragments to be emitted for
one line (the count is per emitted result, not per line)". -/
theorem regex_maxCount_fragment_cex :
    optsOnlyA.maxCount = 1
    ∧ (grepBufferRegex (strBytes "aa\n") optsOnlyA).length = 2
    ∧ ¬((grepBufferRegex (strBytes "aa\n") optsOnlyA).length ≤ optsOnlyA.maxCount) := by
  decide

theorem emitRegion_le (maxCount off : Nat) (hm : 0 < maxCount) :
    ∀ (rs : List GrepLineResult) (mc : Nat), mc < maxCount →
      (emitRegion maxCount off rs mc).2.1 ≤ maxCount := by
  intro rs
  induction rs with
  | nil => intro mc hmc; exact Nat.le_of_lt hmc
  | cons r rest ih =>
    intro mc hmc
    simp only [emitRegion]
    split
    · simpa using hmc
    · next hcond =>
      have : mc + 1 < maxCount := by
        rcases Nat.lt_or_ge (mc + 1) maxCount with h | h
        · exact h
        · exact absurd ⟨hm, h⟩ hcond
      exact ih (mc + 1) this

theorem emitRegion_not_stopped_lt (maxCount off : Nat) (hm : 0 < maxCount) :
    ∀ (rs : List GrepLineResult) (mc : Nat), mc < maxCount →
      (emitRegion maxCount off rs mc).2.2 = false →
      (emitRegion maxCount off rs mc).2.1 < maxCount := by
  intro rs
  induction rs with
  | nil => intro mc hmc _; exact hmc
  | cons r rest ih =>
    intro mc hmc hns
    simp only [emitRegion] at hns ⊢
    split
    · next hcond =>
      rw [if_pos hcond] at hns
      cases hns
    · next hcond =>
      rw [if_neg hcond] at hns
      have : mc + 1 < maxCount := by
        rcases Nat.lt_or_ge (mc + 1) maxCount with h | h
        · exact h
        · exact absurd ⟨hm, h⟩ hcond
      exact ih (mc + 1) this hns

theorem accInsert_length_le (acc : List LineAcc) (n : Nat) (c : List Nat) (o : Nat) :
    (accInsert acc n c o).length ≤ acc.length + 1 := by
  unfold accInsert
  split
  · simp
  · simp

theorem fwdLoop_length_le (buffer : List Nat) (options : FastGrepOptions)
    (hm : 0 < options.maxCount) :
    ∀ (ps : List Nat) (cls cln : Nat) (acc : List LineAcc), acc.length < options.maxCount →
      (fwdLoop buffer options ps cls cln acc).length ≤ options.maxCount := by
  intro ps
  induction ps with
  | nil => intro cls cln acc hacc; exact Nat.le_of_lt hacc
  | cons p rest ih =>
    intro cls cln acc hacc
    simp only [fwdLoop]
    split
    · exact ih _ _ acc hacc
    · split
      · exact ih _ _ acc hacc
      · split
        · next hcond =>
          have h1 := accInsert_length_le acc
            (fastForward buffer p cls cln).2 (extractLineAt buffer p).content
            (p - (extractLineAt buffer p).start)
          omega
        · next hcond =>
          apply ih
          rcases Nat.lt_or_ge (accInsert acc (fastForward buffer p cls cln).2
            (extractLineAt buffer p).content (p - (extractLineAt buffer p).start)).length
            options.maxCount with h | h
          · exact h
          · exact absurd ⟨hm, h⟩ hcond

theorem invertCollect_length_le (matchSet : List Nat) (options : FastGrepOptions)
    (hm : 0 < options.maxCount) :
    ∀ (lines : List (List Nat)) (ln mc : Nat) (results : List GrepLineResult),
      results.length ≤ mc → mc < options.maxCount →
      (invertCollect matchSet options lines ln mc results).length ≤ options.maxCount := by
  intro lines
  induction lines with
  | nil => intro ln mc res hres hmc; exact Nat.le_trans hres (Nat.le_of_lt hmc)
  | cons line rest ih =>
    intro ln mc res hres hmc
    simp only [invertCollect]
    split
    · split
      · next hcond => simp only [List.length_append, List.length_singleton]; omega
      · next hcond =>
        apply ih
        · simp only [List.length_append, List.length_singleton]; omega
        · rcases Nat.lt_or_ge (mc + 1) options.maxCount with h | h
          · exact h
          · exact absurd ⟨hm, h⟩ hcond
    · exact ih _ _ res hres hmc

theorem grepBufferLiteral_length_le (buffer : List Nat) (options : FastGrepOptions)
    (hm : 0 < options.maxCount) :
    (grepBufferLiteral buffer options).length ≤ options.maxCount := by
  simp only [grepBufferLiteral]
  split <;> split
  all_goals first
    | (unfold grepBufferInvert
       exact invertCollect_length_le _ options hm _ _ _ _ (by simp) hm)
    | (rw [List.length_map]
       exact fwdLoop_length_le buffer options hm _ _ _ _ (by simpa using hm))

theorem grepRegexGo_length_le (options : FastGrepOptions)
    (hm : 0 < options.maxCount)
    (hnom : ¬(options.onlyMatching ∧ ¬ options.invertMatch)) :
    ∀ (lines : List (List Nat)) (i mc : Nat), mc < options.maxCount →
      (grepRegexGo options lines i mc).length + mc ≤ options.maxCount := by
  intro lines
  induction lines with
  | nil => intro i mc hmc; simpa [grepRegexGo] using Nat.le_of_lt hmc
  | cons line rest ih =>
    intro i mc hmc
    simp only [grepRegexGo, if_neg hnom]
    split
    · split
      · next hcond => simp only [List.length_singleton]; omega
      · next hcond =>
        have hlt : mc + 1 < options.maxCount := by
          rcases Nat.lt_or_ge (mc + 1) options.maxCount with h | h
          · exact h
          · exact absurd ⟨hm, h⟩ hcond
        have := ih (i + 1) (mc + 1) hlt
        simp only [List.length_append, List.length_cons, List.length_nil]
        omega
    · exact ih (i + 1) mc hmc

theorem grepRegexGo_distinct_lines (options : FastGrepOptions)
    (hm : 0 < options.maxCount) :
    ∀ (lines : List (List Nat)) (i mc : Nat), mc < options.maxCount →
      ∃ S : Finset Nat, S.card + mc ≤ options.maxCount ∧
        ∀ r ∈ grepRegexGo options lines i mc, r.lineNumber ∈ S := by
  intro lines
  induction lines with
  | nil =>
    intro i mc hmc
    exact ⟨∅, by simpa using Nat.le_of_lt hmc, by simp [grepRegexGo]⟩
  | cons line rest ih =>
    intro i mc hmc
    simp only [grepRegexGo]
    split
    · have hemit : ∀ r ∈ (if options.onlyMatching ∧ ¬ options.invertMatch then
          (options.regex.findAll line).map
            (fun m => (⟨i + 1, m, none⟩ : GrepLineResult))
          else [⟨i + 1, line, none⟩]), r.lineNumber = i + 1 := by
        intro r hr
        split at hr
        · rcases List.mem_map.mp hr with ⟨m, _, rfl⟩; rfl
        · simp only [List.mem_singleton] at hr; subst hr; rfl
      split
      · refine ⟨{i + 1}, by simp only [Finset.card_singleton]; omega, ?_⟩
        intro r hr
        rw [hemit r hr]
        exact Finset.mem_singleton_self _
      · next hcond =>
        have hlt : mc + 1 < options.maxCount := by
          rcases Nat.lt_or_ge (mc + 1) options.maxCount with h | h
          · exact h
          · exact absurd ⟨hm, h⟩ hcond
        rcases ih (i + 1) (mc + 1) hlt with ⟨S, hcard, hmem⟩
        refine ⟨insert (i + 1) S, ?_, ?_⟩
        · have := Finset.card_insert_le (i + 1) S
          omega
        · intro r hr
          rcases List.mem_append.mp hr with hr | hr
          · rw [hemit r hr]; exact Finset.mem_insert_self _ _
          · exact Finset.mem_insert_of_mem (hmem r hr)
    · exact ih (i + 1) mc hmc

theorem streamGo_matchCount (options : FastGrepOptions) (hm : 0 < options.maxCount) :
    ∀ (chunks : List (List Nat)) (buffer : List Nat) (off mc : Nat), mc < options.maxCount →
      (grepStreamGo options chunks buffer off mc).matchCount =
        mc + (grepStreamGo options chunks buffer off mc).results.length
      ∧ (grepStreamGo options chunks buffer off mc).matchCount ≤ options.maxCount := by
  intro chunks
  induction chunks with
  | nil =>
    intro buffer off mc hmc
    simp only [grepStreamGo]
    split
    · exact ⟨emitRegion_count _ _ _ _, emitRegion_le _ _ hm _ _ hmc⟩
    · exact ⟨by simp, Nat.le_of_lt hmc⟩
  | cons value rest ih =>
    intro buffer off mc hmc
    simp only [grepStreamGo]
    cases hk : lastNL (buffer ++ value) with
    | none => exact ih _ _ _ hmc
    | some k =>
      simp only []
      split
      · exact ⟨emitRegion_count _ _ _ _, emitRegion_le _ _ hm _ _ hmc⟩
      · next hns =>
        have hlt := emitRegion_not_stopped_lt options.maxCount off hm
          (scanBuffer ((buffer ++ value).take (k + 1)) options) mc hmc
          (Bool.of_not_eq_true hns)
        rcases ih ((buffer ++ value).drop (k + 1))
          (off + countNewlines ((buffer ++ value).take (k + 1)) 0
            ((buffer ++ value).take (k + 1)).length)
          ((emitRegion options.maxCount off
            (scanBuffer ((buffer ++ value).take (k + 1)) options) mc).2.1) hlt with ⟨h1, h2⟩
        constructor
        · simp only [List.length_append]
          rw [h1, emitRegion_count]
          omega
        · exact h2

/-- C1 (amended): with `maxCount = k > 0`, `grepBufferLiteral` returns at
most `k` results (forward and invert mode alike); `grepBufferRegex` caps
the number of selected lines at `k`, so its results span at most `k`
distinct line numbers and number at most `k` whenever it is not in
non-inverted `onlyMatching` mode — in that mode the count is per selected
line, not per emitted fragment, so fragment results may exceed `k` while
still covering at most `k` lines; and `grepStream` invokes `onMatch` at
most `k` times in total across all regions. -/
theorem maxCount_cap_amended (options : FastGrepOptions) (buffer : List Nat)
    (chunks : List (List Nat)) (hm : 0 < options.maxCount) :
    (grepBufferLiteral buffer options).length ≤ options.maxCount
    ∧ (¬(options.onlyMatching ∧ ¬ options.invertMatch) →
        (grepBufferRegex buffer options).length ≤ options.maxCount)
    ∧ (∃ S : Finset Nat, S.card ≤ options.maxCount ∧
        ∀ r ∈ grepBufferRegex buffer options, r.lineNumber ∈ S)
    ∧ (grepStream options chunks).results.length ≤ options.maxCount := by
  refine ⟨grepBufferLiteral_length_le buffer options hm, ?_, ?_, ?_⟩
  · intro hnom
    have := grepRegexGo_length_le options hm hnom (linesForRegex buffer) 0 0 hm
    simpa [grepBufferRegex] using this
  · rcases grepRegexGo_distinct_lines options hm (linesForRegex buffer) 0 0 hm with
      ⟨S, hcard, hmem⟩
    exact ⟨S, by omega, hmem⟩
  · rcases streamGo_matchCount options hm chunks [] 0 0 hm with ⟨h1, h2⟩
    show (grepStreamGo options chunks [] 0 0).results.length ≤ options.maxCount
    omega

theorem maxCount_cap_amended_witness :
    (grepBufferLiteral (strBytes "xx\nxx\n") optsXX1).length ≤ 1
    ∧ (grepStream optsXX1 [strBytes "xx\nxx\n"]).results.length ≤ 1 := by
  have h := maxCount_cap_amended optsXX1 (strBytes "xx\nxx\n") [strBytes "xx\nxx\n"]
    (by decide)
  exact ⟨h.1, h.2.2.2⟩

/-! ### C7: the literal scanners return exactly the occurrence offsets -/

theorem mem_findPatternPositions {chunk pattern : List Nat} {p : Nat} :
    p ∈ findPatternPositions chunk pattern ↔
      pattern ≠ [] ∧ patternOccursAt chunk pattern p := by
  unfold findPatternPositions patternOccursAt
  split
  · next hguard =>
    simp only [List.not_mem_nil, false_iff]
    rintro ⟨hne, hlen, heq⟩
    rcases hguard with h0 | hlt
    · exact hne (List.length_eq_zero.mp h0)
    · omega
  · next hguard =>
    push_neg at hguard
    simp only [List.mem_filter, List.mem_range, matchesAt, decide_eq_true_eq]
    constructor
    · rintro ⟨hr, heq⟩
      refine ⟨fun h => by simp [h] at hguard, by omega, heq⟩
    · rintro ⟨hne, hlen, heq⟩
      exact ⟨by omega, heq⟩

theorem mem_findPatternPositionsIgnoreCase {chunk pattern : List Nat} {p : Nat} :
    p ∈ findPatternPositionsIgnoreCase chunk pattern ↔
      pattern ≠ [] ∧
        patternOccursAt (chunk.map toLowerAscii) (pattern.map toLowerAscii) p := by
  unfold findPatternPositionsIgnoreCase patternOccursAt
  split
  · next hguard =>
    simp only [List.not_mem_nil, false_iff, List.length_map]
    rintro ⟨hne, hlen, heq⟩
    rcases hguard with h0 | hlt
    · exact hne (List.length_eq_zero.mp h0)
    · omega
  · next hguard =>
    push_neg at hguard
    simp only [List.mem_filter, List.mem_range, matchesAt, decide_eq_true_eq,
      List.length_map]
    constructor
    · rintro ⟨hr, heq⟩
      refine ⟨fun h => by simp [h] at hguard, by omega, heq⟩
    · rintro ⟨hne, hlen, heq⟩
      exact ⟨by omega, heq⟩

theorem findPatternPositions_sorted (chunk pattern : List Nat) :
    (findPatternPositions chunk pattern).Sorted (· < ·) := by
  unfold findPatternPositions
  split
  · simp
  · exact List.Pairwise.filter _ (List.pairwise_lt_range _)

theorem findPatternPositionsIgnoreCase_sorted (chunk pattern : List Nat) :
    (findPatternPositionsIgnoreCase chunk pattern).Sorted (· < ·) := by
  unfold findPatternPositionsIgnoreCase
  split
  · simp
  · exact List.Pairwise.filter _ (List.pairwise_lt_range _)

/-- C7: the case-sensitive literal scan returns exactly the ascending list
of offsets where the pattern's bytes occur contiguously; the
case-insensitive variant returns exactly the offsets where they occur after
mapping bytes 65-90 (`A`-`Z`) to 97-122 (`a`-`z`) on both sides, all other
bytes unchanged; and both return the empty list, without error, when the
pattern is empty or longer than the buffer. -/
theorem findPatternPositions_spec (chunk pattern : List Nat) :
    (∀ p, p ∈ findPatternPositions chunk pattern ↔
        pattern ≠ [] ∧ patternOccursAt chunk pattern p)
    ∧ (∀ p, p ∈ findPatternPositionsIgnoreCase chunk pattern ↔
        pattern ≠ [] ∧
          patternOccursAt (chunk.map toLowerAscii) (pattern.map toLowerAscii) p)
    ∧ (findPatternPositions chunk pattern).Sorted (· < ·)
    ∧ (findPatternPositionsIgnoreCase chunk pattern).Sorted (· < ·)
    ∧ (pattern = [] ∨ chunk.length < pattern.length →
        findPatternPositions chunk pattern = []
        ∧ findPatternPositionsIgnoreCase chunk pattern = []) := by
  refine ⟨fun p => mem_findPatternPositions, fun p => mem_findPatternPositionsIgnoreCase,
    findPatternPositions_sorted chunk pattern,
    findPatternPositionsIgnoreCase_sorted chunk pattern, ?_⟩
  intro h
  have hg : pattern.length = 0 ∨ chunk.length < pattern.length := by
    rcases h with h | h
    · exact Or.inl (by simp [h])
    · exact Or.inr h
  constructor
  · unfold findPatternPositions
    rw [if_pos hg]
  · unfold findPatternPositionsIgnoreCase
    rw [if_pos hg]

theorem findPatternPositions_spec_witness :
    0 ∈ findPatternPositions (strBytes "foo") (strBytes "f")
    ∧ findPatternPositions (strBytes "fo") (strBytes "foo") = [] := by
  constructor
  · exact ((findPatternPositions_spec (strBytes "foo") (strBytes "f")).1 0).mpr (by decide)
  · exact ((findPatternPositions_spec (strBytes "fo")
      (strBytes "foo")).2.2.2.2 (by decide)).1

/-! ### C9: ascending line-number order — scanner-level lemmas -/

theorem accInsert_map_lineNumber (acc : List LineAcc) (n : Nat) (c : List Nat) (o : Nat) :
    (accInsert acc n c o).map (·.lineNumber) =
      if n ∈ acc.map (·.lineNumber) then acc.map (·.lineNumber)
      else acc.map (·.lineNumber) ++ [n] := by
  unfold accInsert
  split
  · next h =>
    have hn : n ∈ acc.map (·.lineNumber) := by
      simp only [List.any_eq_true, beq_iff_eq] at h
      rcases h with ⟨e, he, hee⟩
      exact List.mem_map.mpr ⟨e, he, hee⟩
    rw [if_pos hn, List.map_map]
    apply List.map_congr_left
    intro e he
    simp only [Function.comp_apply]
    split <;> rfl
  · next h =>
    have hn : n ∉ acc.map (·.lineNumber) := by
      simp only [List.any_eq_true, beq_iff_eq] at h
      push_neg at h
      intro hmem
      rcases List.mem_map.mp hmem with ⟨e, he, hee⟩
      exact (h e he) hee
    rw [if_neg hn, List.map_append]
    rfl

theorem accInsert_lineNumber_pred (Q : Nat → Prop) (acc : List LineAcc) (n : Nat)
    (c : List Nat) (o : Nat) (hacc : ∀ e ∈ acc, Q e.lineNumber) (hn : Q n) :
    ∀ e ∈ accInsert acc n c o, Q e.lineNumber := by
  intro e he
  unfold accInsert at he
  split at he
  · rcases List.mem_map.mp he with ⟨e', he', rfl⟩
    have := hacc e' he'
    split <;> simpa using this
  · rcases List.mem_append.mp he with he | he
    · exact hacc e he
    · simp only [List.mem_singleton] at he
      subst he
      exact hn

theorem fastForwardGo_cln_le (pos : Nat) :
    ∀ (l : List Nat) (i cls cln : Nat), cln ≤ (fastForwardGo pos l i cls cln).2 := by
  intro l
  induction l with
  | nil => intro i cls cln; exact Nat.le_refl _
  | cons b rest ih =>
    intro i cls cln
    simp only [fastForwardGo]
    split
    · split
      · exact Nat.le_trans (Nat.le_succ cln) (ih (i + 1) (i + 1) (cln + 1))
      · exact ih (i + 1) cls cln
    · exact Nat.le_refl _

theorem fastForward_cln_le (buffer : List Nat) (pos cls cln : Nat) :
    cln ≤ (fastForward buffer pos cls cln).2 :=
  fastForwardGo_cln_le pos (buffer.drop cls) cls cls cln

theorem count_take_succ (buffer : List Nat) (i : Nat) (h : i < buffer.length) (a : Nat) :
    (buffer.take (i + 1)).count a =
      (buffer.take i).count a + if buffer[i] = a then 1 else 0 := by
  rw [List.take_succ, List.count_append, List.getElem?_eq_getElem h]
  by_cases hba : buffer[i] = a <;> simp [hba, List.count_cons]

theorem fastForwardGo_spec (buffer : List Nat) (pos : Nat) (hpos : pos ≤ buffer.length) :
    ∀ (l : List Nat) (i cls cln : Nat),
      l = buffer.drop i → cls ≤ i →
      cln = 1 + (buffer.take cls).count NEWLINE →
      (buffer.take i).count NEWLINE = (buffer.take cls).count NEWLINE →
      i ≤ pos →
      (fastForwardGo pos l i cls cln).2 = 1 + (buffer.take pos).count NEWLINE
      ∧ (fastForwardGo pos l i cls cln).1 ≤ pos
      ∧ (buffer.take (fastForwardGo pos l i cls cln).1).count NEWLINE =
          (buffer.take pos).count NEWLINE := by
  intro l
  induction l with
  | nil =>
    intro i cls cln hl hcls hcln hcnt hip
    have hlen : buffer.length ≤ i := List.drop_eq_nil_iff.mp hl.symm
    have hie : i = pos := by omega
    subst hie
    simp only [fastForwardGo]
    exact ⟨by omega, hcls, by omega⟩
  | cons b rest ih =>
    intro i cls cln hl hcls hcln hcnt hip
    have hilen : i < buffer.length := by
      by_contra hge
      rw [List.drop_eq_nil_of_le (by omega)] at hl
      cases hl
    have hb : b = buffer[i] := by
      have := List.drop_eq_getElem_cons hilen
      rw [this] at hl
      exact (List.cons_eq_cons.mp hl.symm).1.symm
    have hrest : rest = buffer.drop (i + 1) := by
      have := List.drop_eq_getElem_cons hilen
      rw [this] at hl
      exact (List.cons_eq_cons.mp hl.symm).2.symm
    simp only [fastForwardGo]
    by_cases hip' : i < pos
    · rw [if_pos hip']
      by_cases hbn : b = NEWLINE
      · rw [if_pos hbn]
        apply ih (i + 1) (i + 1) (cln + 1) hrest (Nat.le_refl _)
        · rw [count_take_succ buffer i hilen, if_pos (by rw [← hb, hbn])]
          omega
        · rfl
        · omega
      · rw [if_neg hbn]
        apply ih (i + 1) cls cln hrest (by omega) hcln
        · rw [count_take_succ buffer i hilen, if_neg (by rw [← hb]; exact hbn)]
          omega
        · omega
    · rw [if_neg hip']
      have hie : i = pos := by omega
      subst hie
      refine ⟨?_, hcls, ?_⟩
      · show cln = 1 + (buffer.take i).count NEWLINE
        omega
      · show (buffer.take cls).count NEWLINE = (buffer.take i).count NEWLINE
        omega

theorem fastForward_spec (buffer : List Nat) (pos cls cln : Nat)
    (hpos : pos ≤ buffer.length) (hcls : cls ≤ pos)
    (hcln : cln = 1 + (buffer.take cls).count NEWLINE) :
    (fastForward buffer pos cls cln).2 = 1 + (buffer.take pos).count NEWLINE
    ∧ (fastForward buffer pos cls cln).1 ≤ pos
    ∧ (buffer.take (fastForward buffer pos cls cln).1).count NEWLINE =
        (buffer.take pos).count NEWLINE :=
  fastForwardGo_spec buffer pos hpos (buffer.drop cls) cls cls cln rfl (Nat.le_refl _)
    hcln rfl hcls

theorem fwdLoop_map_pairwise (buffer : List Nat) (options : FastGrepOptions) :
    ∀ (ps : List Nat) (cls cln : Nat) (acc : List LineAcc),
      (acc.map (·.lineNumber)).Pairwise (· < ·) →
      (∀ e ∈ acc, e.lineNumber ≤ cln) →
      ((fwdLoop buffer options ps cls cln acc).map (·.lineNumber)).Pairwise (· < ·) := by
  intro ps
  induction ps with
  | nil => intro cls cln acc hpw hle; simpa [fwdLoop] using hpw
  | cons p rest ih =>
    intro cls cln acc hpw hle
    have hmono := fastForward_cln_le buffer p cls cln
    have hle' : ∀ e ∈ acc, e.lineNumber ≤ (fastForward buffer p cls cln).2 :=
      fun e he => Nat.le_trans (hle e he) hmono
    simp only [fwdLoop]
    split
    · exact ih _ _ acc hpw hle'
    · split
      · exact ih _ _ acc hpw hle'
      · have hpw' : ((accInsert acc (fastForward buffer p cls cln).2
            (extractLineAt buffer p).content
            (p - (extractLineAt buffer p).start)).map (·.lineNumber)).Pairwise (· < ·) := by
          rw [accInsert_map_lineNumber]
          split
          · exact hpw
          · next hnm =>
            rw [List.pairwise_append]
            refine ⟨hpw, by simp, ?_⟩
            intro x hx y hy
            simp only [List.mem_singleton] at hy
            subst hy
            rcases List.mem_map.mp hx with ⟨e, he, rfl⟩
            exact Nat.lt_of_le_of_ne (hle' e he) (fun hEq => hnm (hEq ▸ hx))
        have hle'' : ∀ e ∈ accInsert acc (fastForward buffer p cls cln).2
            (extractLineAt buffer p).content (p - (extractLineAt buffer p).start),
            e.lineNumber ≤ (fastForward buffer p cls cln).2 :=
          accInsert_lineNumber_pred (fun n => n ≤ (fastForward buffer p cls cln).2)
            acc _ _ _ hle' (Nat.le_refl _)
        split
        · exact hpw'
        · exact ih _ _ _ hpw' hle''

theorem fwdLoop_lineNumber_pos (buffer : List Nat) (options : FastGrepOptions) :
    ∀ (ps : List Nat) (cls cln : Nat) (acc : List LineAcc),
      1 ≤ cln → (∀ e ∈ acc, 1 ≤ e.lineNumber) →
      ∀ e ∈ fwdLoop buffer options ps cls cln acc, 1 ≤ e.lineNumber := by
  intro ps
  induction ps with
  | nil => intro cls cln acc hcln hacc e he; exact hacc e he
  | cons p rest ih =>
    intro cls cln acc hcln hacc
    have hmono := fastForward_cln_le buffer p cls cln
    have hcln' : 1 ≤ (fastForward buffer p cls cln).2 := Nat.le_trans hcln hmono
    simp only [fwdLoop]
    split
    · exact ih _ _ acc hcln' hacc
    · split
      · exact ih _ _ acc hcln' hacc
      · have hacc' := accInsert_lineNumber_pred (fun n => 1 ≤ n) acc
          (fastForward buffer p cls cln).2 (extractLineAt buffer p).content
          (p - (extractLineAt buffer p).start) hacc hcln'
        split
        · exact hacc'
        · exact ih _ _ _ hcln' hacc'

theorem fwdLoop_lineNumber_le (buffer : List Nat) (options : FastGrepOptions) (B : Nat) :
    ∀ (ps : List Nat) (cls cln : Nat) (acc : List LineAcc),
      ps.Pairwise (· < ·) →
      (∀ p ∈ ps, cls ≤ p ∧ p < buffer.length ∧
        1 + (buffer.take p).count NEWLINE ≤ B) →
      cln = 1 + (buffer.take cls).count NEWLINE →
      (∀ e ∈ acc, e.lineNumber ≤ B) →
      ∀ e ∈ fwdLoop buffer options ps cls cln acc, e.lineNumber ≤ B := by
  intro ps
  induction ps with
  | nil => intro cls cln acc _ _ _ hacc e he; exact hacc e he
  | cons p rest ih =>
    intro cls cln acc hsort hps hcln hacc
    have hp := hps p (List.mem_cons_self p rest)
    have hspec := fastForward_spec buffer p cls cln (Nat.le_of_lt hp.2.1) hp.1 hcln
    have hcln' : (fastForward buffer p cls cln).2 =
        1 + (buffer.take (fastForward buffer p cls cln).1).count NEWLINE := by
      rw [hspec.1, hspec.2.2]
    have hsort' : rest.Pairwise (· < ·) := (List.pairwise_cons.mp hsort).2
    have hps' : ∀ q ∈ rest, (fastForward buffer p cls cln).1 ≤ q ∧ q < buffer.length ∧
        1 + (buffer.take q).count NEWLINE ≤ B := by
      intro q hq
      have hpq : p < q := (List.pairwise_cons.mp hsort).1 q hq
      have := hps q (List.mem_cons_of_mem p hq)
      exact ⟨Nat.le_trans hspec.2.1 (Nat.le_of_lt hpq), this.2.1, this.2.2⟩
    have hstB : (fastForward buffer p cls cln).2 ≤ B := by
      rw [hspec.1]; exact hp.2.2
    simp only [fwdLoop]
    split
    · exact ih _ _ acc hsort' hps' hcln' hacc
    · split
      · exact ih _ _ acc hsort' hps' hcln' hacc
      · have hacc' := accInsert_lineNumber_pred (fun n => n ≤ B) acc
          (fastForward buffer p cls cln).2 (extractLineAt buffer p).content
          (p - (extractLineAt buffer p).start) hacc hstB
        split
        · exact hacc'
        · exact ih _ _ _ hsort' hps' hcln' hacc'

theorem invertCollect_spec (matchSet : List Nat) (options : FastGrepOptions) :
    ∀ (lines : List (List Nat)) (ln mc : Nat) (results : List GrepLineResult),
      ((results.map (·.lineNumber)).Pairwise (· < ·)) →
      (∀ r ∈ results, r.lineNumber < ln) →
      ((invertCollect matchSet options lines ln mc results).map
        (·.lineNumber)).Pairwise (· < ·)
      ∧ ∀ r ∈ invertCollect matchSet options lines ln mc results,
          r ∈ results ∨ (ln ≤ r.lineNumber ∧ r.lineNumber < ln + lines.length) := by
  intro lines
  induction lines with
  | nil =>
    intro ln mc results hpw hlt
    simp only [invertCollect]
    exact ⟨hpw, fun r hr => Or.inl hr⟩
  | cons line rest ih =>
    intro ln mc results hpw hlt
    simp only [invertCollect]
    split
    · have hpw' : ((results ++ [(⟨ln, line, none⟩ : GrepLineResult)]).map
          (·.lineNumber)).Pairwise (· < ·) := by
        rw [List.map_append, List.pairwise_append]
        refine ⟨hpw, by simp, ?_⟩
        intro x hx y hy
        simp only [List.map_cons, List.map_nil, List.mem_singleton] at hy
        subst hy
        rcases List.mem_map.mp hx with ⟨r, hrm, rfl⟩
        exact hlt r hrm
      have hlt' : ∀ r ∈ results ++ [(⟨ln, line, none⟩ : GrepLineResult)],
          r.lineNumber < ln + 1 := by
        intro r hr
        rcases List.mem_append.mp hr with hr | hr
        · exact Nat.lt_succ_of_lt (hlt r hr)
        · simp only [List.mem_singleton] at hr; subst hr; exact Nat.lt_succ_self ln
      split
      · refine ⟨hpw', ?_⟩
        intro r hr
        rcases List.mem_append.mp hr with hr | hr
        · exact Or.inl hr
        · simp only [List.mem_singleton] at hr; subst hr
          exact Or.inr ⟨Nat.le_refl _, by simp only [List.length_cons]; omega⟩
      · rcases ih (ln + 1) (mc + 1) _ hpw' hlt' with ⟨hpw2, hmem2⟩
        refine ⟨hpw2, ?_⟩
        intro r hr
        rcases hmem2 r hr with hr' | hr'
        · rcases List.mem_append.mp hr' with hr'' | hr''
          · exact Or.inl hr''
          · simp only [List.mem_singleton] at hr''; subst hr''
            exact Or.inr ⟨Nat.le_refl _, by simp only [List.length_cons]; omega⟩
        · refine Or.inr ⟨Nat.le_of_succ_le hr'.1, ?_⟩
          have := hr'.2
          simp only [List.length_cons]
          omega
    · rcases ih (ln + 1) mc results hpw
        (fun r hr => Nat.lt_succ_of_lt (hlt r hr)) with ⟨hpw2, hmem2⟩
      refine ⟨hpw2, ?_⟩
      intro r hr
      rcases hmem2 r hr with hr' | hr'
      · exact Or.inl hr'
      · refine Or.inr ⟨Nat.le_of_succ_le hr'.1, ?_⟩
        have := hr'.2
        simp only [List.length_cons]
        omega

theorem grepRegexGo_spec (options : FastGrepOptions) :
    ∀ (lines : List (List Nat)) (i mc : Nat),
      (grepRegexGo options lines i mc).Pairwise (fun a b => a.lineNumber ≤ b.lineNumber)
      ∧ ∀ r ∈ grepRegexGo options lines i mc,
          i + 1 ≤ r.lineNumber ∧ r.lineNumber ≤ i + lines.length := by
  intro lines
  induction lines with
  | nil => intro i mc; simp [grepRegexGo]
  | cons line rest ih =>
    intro i mc
    simp only [grepRegexGo]
    split
    · have hemit : ∀ r ∈ (if options.onlyMatching ∧ ¬ options.invertMatch then
          (options.regex.findAll line).map
            (fun m => (⟨i + 1, m, none⟩ : GrepLineResult))
          else [⟨i + 1, line, none⟩]), r.lineNumber = i + 1 := by
        intro r hr
        split at hr
        · rcases List.mem_map.mp hr with ⟨m, _, rfl⟩; rfl
        · simp only [List.mem_singleton] at hr; subst hr; rfl
      have hemitpw : (if options.onlyMatching ∧ ¬ options.invertMatch then
          (options.regex.findAll line).map
            (fun m => (⟨i + 1, m, none⟩ : GrepLineResult))
          else [⟨i + 1, line, none⟩]).Pairwise
            (fun a b => a.lineNumber ≤ b.lineNumber) :=
        List.pairwise_of_forall_mem_list
          (fun a ha b hb => by rw [hemit a ha, hemit b hb])
      split
      · refine ⟨hemitpw, fun r hr => ?_⟩
        rw [hemit r hr]
        exact ⟨Nat.le_refl _, by simp only [List.length_cons]; omega⟩
      · rcases ih (i + 1) (mc + 1) with ⟨hpw2, hb2⟩
        constructor
        · rw [List.pairwise_append]
          refine ⟨hemitpw, hpw2, ?_⟩
          intro a ha b hb
          rw [hemit a ha]
          have := (hb2 b hb).1
          omega
        · intro r hr
          rcases List.mem_append.mp hr with hr | hr
          · rw [hemit r hr]
            exact ⟨Nat.le_refl _, by simp only [List.length_cons]; omega⟩
          · have := hb2 r hr
            exact ⟨by omega, by simp only [List.length_cons]; omega⟩
    · rcases ih (i + 1) mc with ⟨hpw2, hb2⟩
      refine ⟨hpw2, fun r hr => ?_⟩
      have := hb2 r hr
      exact ⟨by omega, by simp only [List.length_cons]; omega⟩

theorem splitOnNL_ne_nil (l : List Nat) : splitOnNL l ≠ [] := by
  induction l with
  | nil => simp [splitOnNL]
  | cons b rest ih =>
    simp only [splitOnNL]
    split
    · simp
    · cases h : splitOnNL rest with
      | nil => simp
      | cons x xs => simp

theorem splitOnNL_length (l : List Nat) :
    (splitOnNL l).length = l.count NEWLINE + 1 := by
  induction l with
  | nil => simp [splitOnNL]
  | cons b rest ih =>
    simp only [splitOnNL]
    by_cases hb : b = NEWLINE
    · rw [if_pos hb]
      simp only [List.length_cons, List.count_cons, ih]
      simp [hb]
    · rw [if_neg hb]
      cases h : splitOnNL rest with
      | nil => exact absurd h (splitOnNL_ne_nil rest)
      | cons x xs =>
        rw [h] at ih
        simp only [List.length_cons] at ih
        simp only [List.length_cons, List.count_cons]
        simp [hb, ih]

theorem splitOnNL_cons_nl (rest : List Nat) :
    splitOnNL (NEWLINE :: rest) = [] :: splitOnNL rest := by
  simp [splitOnNL]

theorem splitOnNL_cons_ne {b : Nat} {rest : List Nat} (hb : ¬ b = NEWLINE)
    {y : List Nat} {ys : List (List Nat)} (hp : splitOnNL rest = y :: ys) :
    splitOnNL (b :: rest) = (b :: y) :: ys := by
  simp only [splitOnNL, if_neg hb, hp]

theorem splitOnNL_getLast_eq_nil : ∀ (l : List Nat), l.getLast? = some NEWLINE →
    (splitOnNL l).getLast? = some [] := by
  intro l
  induction l with
  | nil => intro h; cases h
  | cons b rest ih =>
    intro h
    cases rest with
    | nil =>
      simp only [List.getLast?_singleton, Option.some.injEq] at h
      subst h
      rfl
    | cons r0 rest' =>
      rw [List.getLast?_cons_cons] at h
      have ihh := ih h
      by_cases hb : b = NEWLINE
      · subst hb
        rw [splitOnNL_cons_nl]
        cases hp : splitOnNL (r0 :: rest') with
        | nil => exact absurd hp (splitOnNL_ne_nil _)
        | cons y ys =>
          rw [hp] at ihh
          rw [List.getLast?_cons_cons]
          exact ihh
      · cases hp : splitOnNL (r0 :: rest') with
        | nil => exact absurd hp (splitOnNL_ne_nil _)
        | cons y ys =>
          rw [splitOnNL_cons_ne hb hp]
          rw [hp] at ihh
          cases ys with
          | nil =>
            have hcount := splitOnNL_length (r0 :: rest')
            rw [hp] at hcount
            simp only [List.length_singleton] at hcount
            have hnom : NEWLINE ∉ (r0 :: rest') := List.count_eq_zero.mp (by omega)
            exact absurd (List.mem_of_mem_getLast? h) hnom
          | cons z zs =>
            rw [List.getLast?_cons_cons] at ihh ⊢
            exact ihh

theorem linesOf_length_of_getLast (l : List Nat) (h : l.getLast? = some NEWLINE) :
    (linesOf l).length = l.count NEWLINE := by
  simp only [linesOf]
  rw [if_pos (splitOnNL_getLast_eq_nil l h), List.length_dropLast, splitOnNL_length]
  simp

theorem linesForRegex_length_of_getLast (l : List Nat) (h : l.getLast? = some NEWLINE) :
    (linesForRegex l).length = l.count NEWLINE := by
  simp only [linesForRegex]
  rw [if_pos h, List.length_dropLast, splitOnNL_length]
  simp

theorem one_add_count_take_le (buffer : List Nat) (p : Nat)
    (hgl : buffer.getLast? = some NEWLINE) (hp : p < buffer.length) :
    1 + (buffer.take p).count NEWLINE ≤ buffer.count NEWLINE := by
  have hne : buffer ≠ [] := by intro hb; rw [hb] at hgl; cases hgl
  have hlast : buffer.getLast hne = NEWLINE := by
    have := List.getLast?_eq_getLast buffer hne
    rw [this] at hgl
    exact Option.some.inj hgl
  have hdecomp : buffer.dropLast ++ [NEWLINE] = buffer := by
    rw [← hlast]
    exact List.dropLast_append_getLast hne
  have hlen : buffer.dropLast.length = buffer.length - 1 := List.length_dropLast buffer
  have htake : buffer.take p = buffer.dropLast.take p := by
    conv_lhs => rw [← hdecomp]
    rw [List.take_append_of_le_length (by omega)]
  have hcnt : buffer.count NEWLINE = buffer.dropLast.count NEWLINE + 1 := by
    conv_lhs => rw [← hdecomp]
    rw [List.count_append]
    simp
  have hle : (buffer.dropLast.take p).count NEWLINE ≤ buffer.dropLast.count NEWLINE :=
    (List.take_sublist p _).count_le NEWLINE
  rw [htake]
  omega

theorem grepBufferLiteral_pairwise (buffer : List Nat) (options : FastGrepOptions) :
    (grepBufferLiteral buffer options).Pairwise
      (fun a b => a.lineNumber ≤ b.lineNumber) := by
  have hinv : ∀ positions : List Nat,
      (grepBufferInvert buffer positions options).Pairwise
        (fun a b => a.lineNumber ≤ b.lineNumber) := by
    intro positions
    unfold grepBufferInvert
    have hpw := (invertCollect_spec (msLoop (linesOf buffer) 0 1 positions [])
      options (linesOf buffer) 1 0 [] (by simp) (by simp)).1
    exact (List.pairwise_map.mp hpw).imp (fun h => Nat.le_of_lt h)
  have hfwd : ∀ positions : List Nat,
      ((fwdLoop buffer options positions 0 1 []).map fun m =>
        if options.onlyMatching then (⟨m.lineNumber, options.pattern, none⟩ : GrepLineResult)
        else ⟨m.lineNumber, m.content, none⟩).Pairwise
          (fun a b => a.lineNumber ≤ b.lineNumber) := by
    intro positions
    have hpw := fwdLoop_map_pairwise buffer options positions 0 1 [] (by simp) (by simp)
    have h2 := List.pairwise_map.mp hpw
    rw [List.pairwise_map]
    refine List.Pairwise.imp ?_ h2
    intro a b hab
    have hfa : ∀ m : LineAcc, ((if options.onlyMatching = true then
        (⟨m.lineNumber, options.pattern, none⟩ : GrepLineResult)
        else ⟨m.lineNumber, m.content, none⟩)).lineNumber = m.lineNumber :=
      fun m => by split <;> rfl
    rw [hfa a, hfa b]
    exact Nat.le_of_lt hab
  simp only [grepBufferLiteral]
  split
  · exact hinv _
  · exact hfwd _

theorem grepBufferLiteral_lineNumber_pos (buffer : List Nat) (options : FastGrepOptions) :
    ∀ r ∈ grepBufferLiteral buffer options, 1 ≤ r.lineNumber := by
  simp only [grepBufferLiteral]
  split
  · intro r hr
    unfold grepBufferInvert at hr
    rcases (invertCollect_spec _ options _ 1 0 [] (by simp) (by simp)).2 r hr with h | h
    · simp at h
    · exact h.1
  · intro r hr
    rcases List.mem_map.mp hr with ⟨m, hm, rfl⟩
    have := fwdLoop_lineNumber_pos buffer options _ 0 1 [] (Nat.le_refl 1) (by simp) m hm
    split <;> exact this

theorem grepBufferLiteral_lineNumber_le (buffer : List Nat) (options : FastGrepOptions)
    (hgl : buffer.getLast? = some NEWLINE) :
    ∀ r ∈ grepBufferLiteral buffer options, r.lineNumber ≤ buffer.count NEWLINE := by
  have hinv : ∀ positions : List Nat, ∀ r ∈ grepBufferInvert buffer positions options,
      r.lineNumber ≤ buffer.count NEWLINE := by
    intro positions r hr
    unfold grepBufferInvert at hr
    rcases (invertCollect_spec _ options _ 1 0 [] (by simp) (by simp)).2 r hr with h | h
    · simp at h
    · have hL := linesOf_length_of_getLast buffer hgl
      have := h.2
      omega
  simp only [grepBufferLiteral]
  split
  · exact hinv _
  · intro r hr
    rcases List.mem_map.mp hr with ⟨m, hm, rfl⟩
    have hval : ∀ p ∈ (if options.ignoreCase = true then
        findPatternPositionsIgnoreCase buffer options.pattern
        else findPatternPositions buffer options.pattern), p < buffer.length := by
      intro p hp
      split at hp
      · rcases mem_findPatternPositionsIgnoreCase.mp hp with ⟨hne, hocc⟩
        have h1 := hocc.1
        simp only [List.length_map] at h1
        have hlen : 0 < options.pattern.length := List.length_pos.mpr hne
        omega
      · rcases mem_findPatternPositions.mp hp with ⟨hne, hocc⟩
        have h1 := hocc.1
        have hlen : 0 < options.pattern.length := List.length_pos.mpr hne
        omega
    have hs : (if options.ignoreCase = true then
        findPatternPositionsIgnoreCase buffer options.pattern
        else findPatternPositions buffer options.pattern).Pairwise (· < ·) := by
      split
      · exact findPatternPositionsIgnoreCase_sorted buffer options.pattern
      · exact findPatternPositions_sorted buffer options.pattern
    have hble := fwdLoop_lineNumber_le buffer options (buffer.count NEWLINE) _ 0 1 [] hs
      (fun p hp => ⟨Nat.zero_le p, hval p hp,
        one_add_count_take_le buffer p hgl (hval p hp)⟩) (by simp) (by simp) m hm
    split <;> exact hble

theorem grepBufferRegex_pairwise (buffer : List Nat) (options : FastGrepOptions) :
    (grepBufferRegex buffer options).Pairwise
      (fun a b => a.lineNumber ≤ b.lineNumber) :=
  (grepRegexGo_spec options (linesForRegex buffer) 0 0).1

theorem grepBufferRegex_bounds (buffer : List Nat) (options : FastGrepOptions) :
    ∀ r ∈ grepBufferRegex buffer options,
      1 ≤ r.lineNumber ∧ r.lineNumber ≤ (linesForRegex buffer).length := by
  intro r hr
  have := (grepRegexGo_spec options (linesForRegex buffer) 0 0).2 r hr
  omega

theorem scanBuffer_pairwise (buffer : List Nat) (options : FastGrepOptions) :
    (scanBuffer buffer options).Pairwise (fun a b => a.lineNumber ≤ b.lineNumber) := by
  unfold scanBuffer
  split
  · exact grepBufferLiteral_pairwise buffer options
  · exact grepBufferRegex_pairwise buffer options

theorem scanBuffer_lineNumber_pos (buffer : List Nat) (options : FastGrepOptions) :
    ∀ r ∈ scanBuffer buffer options, 1 ≤ r.lineNumber := by
  unfold scanBuffer
  split
  · exact grepBufferLiteral_lineNumber_pos buffer options
  · exact fun r hr => (grepBufferRegex_bounds buffer options r hr).1

theorem scanBuffer_lineNumber_le (buffer : List Nat) (options : FastGrepOptions)
    (hgl : buffer.getLast? = some NEWLINE) :
    ∀ r ∈ scanBuffer buffer options, r.lineNumber ≤ buffer.count NEWLINE := by
  unfold scanBuffer
  split
  · exact grepBufferLiteral_lineNumber_le buffer options hgl
  · intro r hr
    have := (grepBufferRegex_bounds buffer options r hr).2
    rw [linesForRegex_length_of_getLast buffer hgl] at this
    exact this

theorem emitRegion_results_take (maxCount off : Nat) :
    ∀ (rs : List GrepLineResult) (mc : Nat), ∃ n,
      (emitRegion maxCount off rs mc).1 =
        (rs.map (fun r => { r with lineNumber := r.lineNumber + off })).take n := by
  intro rs
  induction rs with
  | nil => intro mc; exact ⟨0, rfl⟩
  | cons r rest ih =>
    intro mc
    simp only [emitRegion]
    split
    · exact ⟨1, rfl⟩
    · rcases ih (mc + 1) with ⟨n, hn⟩
      exact ⟨n + 1, by simp only [List.map_cons, List.take_succ_cons, hn]⟩

theorem emitRegion_pairwise (maxCount off : Nat) (rs : List GrepLineResult) (mc : Nat)
    (hpw : rs.Pairwise (fun a b => a.lineNumber ≤ b.lineNumber)) :
    (emitRegion maxCount off rs mc).1.Pairwise
      (fun a b => a.lineNumber ≤ b.lineNumber) := by
  rcases emitRegion_results_take maxCount off rs mc with ⟨n, hn⟩
  rw [hn]
  apply List.Pairwise.sublist (List.take_sublist n _)
  rw [List.pairwise_map]
  exact hpw.imp (fun h => Nat.add_le_add_right h off)

theorem emitRegion_mem_lo (maxCount off : Nat) (rs : List GrepLineResult) (mc lo : Nat)
    (hb : ∀ r ∈ rs, lo ≤ r.lineNumber) :
    ∀ r ∈ (emitRegion maxCount off rs mc).1, off + lo ≤ r.lineNumber := by
  rcases emitRegion_results_take maxCount off rs mc with ⟨n, hn⟩
  rw [hn]
  intro r hr
  rcases List.mem_map.mp ((List.take_sublist n _).mem hr) with ⟨s, hs, rfl⟩
  have := hb s hs
  show off + lo ≤ s.lineNumber + off
  omega

theorem emitRegion_mem_hi (maxCount off : Nat) (rs : List GrepLineResult) (mc hi : Nat)
    (hb : ∀ r ∈ rs, r.lineNumber ≤ hi) :
    ∀ r ∈ (emitRegion maxCount off rs mc).1, r.lineNumber ≤ off + hi := by
  rcases emitRegion_results_take maxCount off rs mc with ⟨n, hn⟩
  rw [hn]
  intro r hr
  rcases List.mem_map.mp ((List.take_sublist n _).mem hr) with ⟨s, hs, rfl⟩
  have := hb s hs
  show s.lineNumber + off ≤ off + hi
  omega

theorem streamGo_pairwise (options : FastGrepOptions) :
    ∀ (chunks : List (List Nat)) (buffer : List Nat) (off mc : Nat),
      ((grepStreamGo options chunks buffer off mc).results.Pairwise
        (fun a b => a.lineNumber ≤ b.lineNumber))
      ∧ ∀ r ∈ (grepStreamGo options chunks buffer off mc).results,
          off + 1 ≤ r.lineNumber := by
  intro chunks
  induction chunks with
  | nil =>
    intro buffer off mc
    simp only [grepStreamGo]
    split
    · exact ⟨emitRegion_pairwise _ _ _ _ (scanBuffer_pairwise buffer options),
        emitRegion_mem_lo _ _ _ _ 1 (scanBuffer_lineNumber_pos buffer options)⟩
    · exact ⟨by simp, by simp⟩
  | cons value rest ih =>
    intro buffer off mc
    simp only [grepStreamGo]
    cases hk : lastNL (buffer ++ value) with
    | none =>
      simp only [hk]
      exact ih _ _ _
    | some k =>
      simp only [hk]
      split
      · exact ⟨emitRegion_pairwise _ _ _ _ (scanBuffer_pairwise _ options),
          emitRegion_mem_lo _ _ _ _ 1 (scanBuffer_lineNumber_pos _ options)⟩
      · have hglc : ((buffer ++ value).take (k + 1)).getLast? = some NEWLINE :=
          lastNL_take_getLast hk
        rcases ih ((buffer ++ value).drop (k + 1))
          (off + countNewlines ((buffer ++ value).take (k + 1)) 0
            ((buffer ++ value).take (k + 1)).length)
          (emitRegion options.maxCount off
            (scanBuffer ((buffer ++ value).take (k + 1)) options) mc).2.1
          with ⟨ihpw, ihlo⟩
        constructor
        · rw [List.pairwise_append]
          refine ⟨emitRegion_pairwise _ _ _ _ (scanBuffer_pairwise _ options), ihpw, ?_⟩
          intro a ha b hb
          have hA := emitRegion_mem_hi options.maxCount off _ mc
            (((buffer ++ value).take (k + 1)).count NEWLINE)
            (scanBuffer_lineNumber_le _ options hglc) a ha
          have hB := ihlo b hb
          rw [countNewlines_whole] at hB
          omega
        · intro r hr
          rcases List.mem_append.mp hr with hr | hr
          · exact emitRegion_mem_lo _ _ _ _ 1
              (scanBuffer_lineNumber_pos _ options) r hr
          · have := ihlo r hr
            omega

/-- C9: for every input and every option combination, the result sequences
of `grepBufferLiteral` and `grepBufferRegex` and the sequence of `onMatch`
invocations made by `grepStream` have non-decreasing line numbers: every
adjacent pair satisfies `r.lineNumber ≤ s.lineNumber`. -/
theorem ascending_lineNumber_order (options : FastGrepOptions) (buffer : List Nat)
    (chunks : List (List Nat)) :
    List.Chain' (fun a b => a.lineNumber ≤ b.lineNumber) (grepBufferLiteral buffer options)
    ∧ List.Chain' (fun a b => a.lineNumber ≤ b.lineNumber) (grepBufferRegex buffer options)
    ∧ List.Chain' (fun a b => a.lineNumber ≤ b.lineNumber)
        (grepStream options chunks).results :=
  ⟨(grepBufferLiteral_pairwise buffer options).chain',
   (grepBufferRegex_pairwise buffer options).chain',
   ((streamGo_pairwise options chunks [] 0 0).1).chain'⟩

/-! ### C4: invert complement — helper lemmas -/

theorem insertOnce_mem (s : List Nat) (k n : Nat) :
    n ∈ insertOnce s k ↔ n ∈ s ∨ n = k := by
  unfold insertOnce
  split
  · next h =>
    constructor
    · exact Or.inl
    · rintro (hn | rfl)
      · exact hn
      · exact h
  · simp [List.mem_append]

theorem foldl_insert_mem (lineStart lineNum : Nat) :
    ∀ (consumed ms : List Nat) (n : Nat),
      n ∈ consumed.foldl
        (fun s p => if lineStart ≤ p then insertOnce s lineNum else s) ms ↔
      n ∈ ms ∨ (n = lineNum ∧ ∃ p ∈ consumed, lineStart ≤ p) := by
  intro consumed
  induction consumed with
  | nil => intro ms n; simp
  | cons c cs ih =>
    intro ms n
    simp only [List.foldl_cons]
    by_cases hc : lineStart ≤ c
    · rw [if_pos hc, ih, insertOnce_mem]
      constructor
      · rintro ((hn | rfl) | ⟨rfl, p, hp, hsp⟩)
        · exact Or.inl hn
        · exact Or.inr ⟨rfl, c, List.mem_cons_self c cs, hc⟩
        · exact Or.inr ⟨rfl, p, List.mem_cons_of_mem c hp, hsp⟩
      · rintro (hn | ⟨rfl, p, hp, hsp⟩)
        · exact Or.inl (Or.inl hn)
        · rcases List.mem_cons.mp hp with rfl | hp'
          · exact Or.inl (Or.inr rfl)
          · exact Or.inr ⟨rfl, p, hp', hsp⟩
    · rw [if_neg hc, ih]
      constructor
      · rintro (hn | ⟨rfl, p, hp, hsp⟩)
        · exact Or.inl hn
        · exact Or.inr ⟨rfl, p, List.mem_cons_of_mem c hp, hsp⟩
      · rintro (hn | ⟨rfl, p, hp, hsp⟩)
        · exact Or.inl hn
        · rcases List.mem_cons.mp hp with rfl | hp'
          · exact absurd hsp hc
          · exact Or.inr ⟨rfl, p, hp', hsp⟩

theorem dropWhile_lt_ge (A : Nat) :
    ∀ (l : List Nat), l.Pairwise (· < ·) →
      ∀ q ∈ l.dropWhile (fun p => decide (p < A)), A ≤ q := by
  intro l
  induction l with
  | nil => intro _ q hq; simp at hq
  | cons x xs ih =>
    intro hpw q hq
    rw [List.dropWhile_cons] at hq
    split at hq
    · exact ih (List.pairwise_cons.mp hpw).2 q hq
    · next hx =>
      simp only [decide_eq_true_eq] at hx
      rcases List.mem_cons.mp hq with rfl | hq'
      · omega
      · have := (List.pairwise_cons.mp hpw).1 q hq'
        omega

theorem mem_takeWhile_lt (A : Nat) (l : List Nat) :
    ∀ p ∈ l.takeWhile (fun p => decide (p < A)), p < A := by
  intro p hp
  have := List.mem_takeWhile_imp hp
  simpa using this

theorem inLines_start_le : ∀ (lines : List (List Nat)) (s m p n : Nat),
    inLines lines s m p n → s ≤ p := by
  intro lines
  induction lines with
  | nil => intro s m p n h; cases h
  | cons line rest ih =>
    intro s m p n h
    rcases h with ⟨h1, _, _⟩ | h
    · exact h1
    · have := ih _ _ _ _ h
      omega

theorem splitOnNL_no_newline : ∀ (l : List Nat), NEWLINE ∉ l → splitOnNL l = [l] := by
  intro l
  induction l with
  | nil => intro _; rfl
  | cons b rest ih =>
    intro h
    have hb : ¬ b = NEWLINE := fun hb => h (by rw [hb]; exact List.mem_cons_self _ _)
    have hr : NEWLINE ∉ rest := fun hr => h (List.mem_cons_of_mem b hr)
    rw [splitOnNL_cons_ne hb (ih hr)]

theorem linesOf_no_newline (l : List Nat) (h : NEWLINE ∉ l) :
    linesOf l = if l = [] then [] else [l] := by
  simp only [linesOf, splitOnNL_no_newline l h]
  by_cases hl : l = []
  · subst hl; rfl
  · rw [if_neg hl]
    rw [if_neg (by simpa using hl)]

theorem exists_first_newline : ∀ (l : List Nat), NEWLINE ∈ l →
    ∃ l₀ b', l = l₀ ++ NEWLINE :: b' ∧ NEWLINE ∉ l₀ := by
  intro l
  induction l with
  | nil => intro h; simp at h
  | cons b rest ih =>
    intro h
    by_cases hb : b = NEWLINE
    · exact ⟨[], rest, by rw [hb]; rfl, by simp⟩
    · have hr : NEWLINE ∈ rest := by
        rcases List.mem_cons.mp h with h' | h'
        · exact absurd h'.symm hb
        · exact h'
      rcases ih hr with ⟨l₀, b', hdec, hnl⟩
      refine ⟨b :: l₀, b', by rw [List.cons_append, ← hdec], ?_⟩
      intro hmem
      rcases List.mem_cons.mp hmem with h' | h'
      · exact hb h'.symm
      · exact hnl h'

theorem splitOnNL_append_nl : ∀ (l₀ b' : List Nat), NEWLINE ∉ l₀ →
    splitOnNL (l₀ ++ NEWLINE :: b') = l₀ :: splitOnNL b' := by
  intro l₀
  induction l₀ with
  | nil => intro b' _; exact splitOnNL_cons_nl b'
  | cons x xs ih =>
    intro b' h
    have hx : ¬ x = NEWLINE := fun hx => h (by rw [hx]; exact List.mem_cons_self _ _)
    have hxs : NEWLINE ∉ xs := fun hm => h (List.mem_cons_of_mem x hm)
    rw [List.cons_append, splitOnNL_cons_ne hx (ih b' hxs)]

theorem linesOf_append_nl (l₀ b' : List Nat) (h : NEWLINE ∉ l₀) :
    linesOf (l₀ ++ NEWLINE :: b') = l₀ :: linesOf b' := by
  simp only [linesOf, splitOnNL_append_nl l₀ b' h]
  cases hp : splitOnNL b' with
  | nil => exact absurd hp (splitOnNL_ne_nil b')
  | cons y ys =>
    rw [List.getLast?_cons_cons]
    split
    · rfl
    · rfl

theorem msLoop_mem :
    ∀ (lines : List (List Nat)) (lineStart lineNum : Nat) (positions ms : List Nat)
      (n : Nat),
      positions.Pairwise (· < ·) →
      (∀ p ∈ positions, ∃ n', inLines lines lineStart lineNum p n') →
      (n ∈ msLoop lines lineStart lineNum positions ms ↔
        n ∈ ms ∨ ∃ p ∈ positions, inLines lines lineStart lineNum p n) := by
  intro lines
  induction lines with
  | nil =>
    intro lineStart lineNum positions ms n hsort hin
    simp only [msLoop]
    constructor
    · exact Or.inl
    · rintro (h | ⟨p, hp, hIn⟩)
      · exact h
      · cases hIn
  | cons line rest ih =>
    intro lineStart lineNum positions ms n hsort hin
    simp only [msLoop]
    by_cases hps : positions = []
    · rw [if_pos hps]
      subst hps
      simp
    · rw [if_neg hps]
      have hconsumed : ∀ p ∈ positions.takeWhile
          (fun p => decide (p < lineStart + line.length)), p < lineStart + line.length :=
        mem_takeWhile_lt _ positions
      have hremge : ∀ q ∈ positions.dropWhile
          (fun p => decide (p < lineStart + line.length)), lineStart + line.length ≤ q :=
        dropWhile_lt_ge _ positions hsort
      have hremsort : (positions.dropWhile
          (fun p => decide (p < lineStart + line.length))).Pairwise (· < ·) :=
        hsort.sublist (List.dropWhile_sublist _)
      have hremin : ∀ q ∈ positions.dropWhile
          (fun p => decide (p < lineStart + line.length)),
          ∃ n', inLines rest (lineStart + line.length + 1) (lineNum + 1) q n' := by
        intro q hq
        have hqA := hremge q hq
        rcases hin q ((List.dropWhile_sublist _).mem hq) with ⟨n', hn'⟩
        rcases hn' with ⟨_, hlt, _⟩ | hn'
        · omega
        · exact ⟨n', hn'⟩
      rw [ih (lineStart + line.length + 1) (lineNum + 1) _ _ n hremsort hremin]
      rw [foldl_insert_mem]
      have hsplit : positions = positions.takeWhile
          (fun p => decide (p < lineStart + line.length)) ++
          positions.dropWhile (fun p => decide (p < lineStart + line.length)) :=
        (List.takeWhile_append_dropWhile _ _).symm
      constructor
      · rintro ((hms | ⟨rfl, p, hp, hsp⟩) | ⟨q, hq, hIn⟩)
        · exact Or.inl hms
        · refine Or.inr ⟨p, ?_, Or.inl ⟨hsp, hconsumed p hp, rfl⟩⟩
          rw [hsplit]
          exact List.mem_append_left _ hp
        · refine Or.inr ⟨q, ?_, Or.inr hIn⟩
          rw [hsplit]
          exact List.mem_append_right _ hq
      · rintro (hms | ⟨p, hp, hIn⟩)
        · exact Or.inl (Or.inl hms)
        · rw [hsplit] at hp
          rcases List.mem_append.mp hp with hp' | hp'
          · rcases hIn with ⟨hsp, hlt, rfl⟩ | hIn'
            · exact Or.inl (Or.inr ⟨rfl, p, hp', hsp⟩)
            · have h1 := inLines_start_le _ _ _ _ _ hIn'
              have h2 := hconsumed p hp'
              omega
          · rcases hIn with ⟨hsp, hlt, rfl⟩ | hIn'
            · have := hremge p hp'
              omega
            · exact Or.inr ⟨p, hp', hIn'⟩

theorem inLines_linesOf_aux : ∀ (N : Nat) (buffer : List Nat), buffer.length ≤ N →
    ∀ (s m q n : Nat),
      inLines (linesOf buffer) s m (s + q) n ↔
        (q < buffer.length ∧ buffer.getD q 0 ≠ NEWLINE ∧
          n = m + (buffer.take q).count NEWLINE) := by
  intro N
  induction N with
  | zero =>
    intro buffer hlen s m q n
    have hb : buffer = [] := List.length_eq_zero.mp (by omega)
    subst hb
    simp [linesOf_nil, inLines]
  | succ N ihN =>
    intro buffer hlen s m q n
    by_cases hnl : NEWLINE ∈ buffer
    · rcases exists_first_newline buffer hnl with ⟨l₀, b', rfl, hl₀⟩
      rw [linesOf_append_nl l₀ b' hl₀]
      have hlb : (l₀ ++ NEWLINE :: b').length = l₀.length + 1 + b'.length := by
        simp [List.length_append]
        omega
      rcases Nat.lt_trichotomy q l₀.length with hq | hq | hq
      · have hget : (l₀ ++ NEWLINE :: b').getD q 0 = l₀.getD q 0 :=
          List.getD_append l₀ (NEWLINE :: b') 0 q hq
        have hgne : l₀.getD q 0 ≠ NEWLINE := by
          rw [List.getD_eq_getElem l₀ 0 hq]
          exact fun hEq => hl₀ (hEq ▸ List.getElem_mem hq)
        have htakeq : ((l₀ ++ NEWLINE :: b').take q).count NEWLINE = 0 := by
          rw [List.take_append_of_le_length (by omega)]
          exact List.count_eq_zero.mpr (fun hm => hl₀ ((List.take_sublist q l₀).mem hm))
        simp only [inLines]
        constructor
        · rintro (⟨_, _, rfl⟩ | hIn)
          · exact ⟨by omega, by rw [hget]; exact hgne, by omega⟩
          · have := inLines_start_le _ _ _ _ _ hIn
            omega
        · rintro ⟨hqlen, hnlq, rfl⟩
          exact Or.inl ⟨by omega, by omega, by omega⟩
      · subst hq
        have hget : (l₀ ++ NEWLINE :: b').getD l₀.length 0 = NEWLINE := by
          rw [List.getD_append_right l₀ (NEWLINE :: b') 0 l₀.length (Nat.le_refl _)]
          simp
        constructor
        · rintro (⟨_, h2, _⟩ | hIn)
          · omega
          · have := inLines_start_le _ _ _ _ _ hIn
            omega
        · rintro ⟨_, hnlq, _⟩
          exact absurd hget hnlq
      · obtain ⟨q', rfl⟩ : ∃ q', q = l₀.length + 1 + q' := ⟨q - l₀.length - 1, by omega⟩
        have hblen : b'.length ≤ N := by
          rw [hlb] at hlen
          omega
        have harg : s + (l₀.length + 1 + q') = (s + l₀.length + 1) + q' := by omega
        have hstep : inLines (l₀ :: linesOf b') s m (s + (l₀.length + 1 + q')) n ↔
            inLines (linesOf b') (s + l₀.length + 1) (m + 1)
              ((s + l₀.length + 1) + q') n := by
          rw [harg]
          simp only [inLines]
          constructor
          · rintro (⟨_, h2, _⟩ | hIn)
            · omega
            · exact hIn
          · exact Or.inr
        rw [hstep, ihN b' hblen (s + l₀.length + 1) (m + 1) q' n]
        have hget : (l₀ ++ NEWLINE :: b').getD (l₀.length + 1 + q') 0 = b'.getD q' 0 := by
          rw [List.getD_append_right l₀ (NEWLINE :: b') 0 _ (by omega)]
          have h2 : l₀.length + 1 + q' - l₀.length = q' + 1 := by omega
          rw [h2, List.getD_cons_succ]
        have htakec : ((l₀ ++ NEWLINE :: b').take (l₀.length + 1 + q')).count NEWLINE =
            1 + (b'.take q').count NEWLINE := by
          rw [List.take_append_eq_append_take, List.count_append,
            List.take_of_length_le (by omega)]
          have h2 : l₀.length + 1 + q' - l₀.length = q' + 1 := by omega
          rw [h2, List.take_succ_cons, List.count_cons]
          have hc0 : l₀.count NEWLINE = 0 := List.count_eq_zero.mpr hl₀
          simp [hc0]
          omega
        rw [hget, htakec, hlb]
        constructor
        · rintro ⟨h1, h2, h3⟩
          exact ⟨by omega, h2, by omega⟩
        · rintro ⟨h1, h2, h3⟩
          exact ⟨by omega, h2, by omega⟩
    · rw [linesOf_no_newline buffer hnl]
      have hcnt : ∀ k, (buffer.take k).count NEWLINE = 0 :=
        fun k => List.count_eq_zero.mpr (fun hm => hnl ((List.take_sublist k buffer).mem hm))
      by_cases hb : buffer = []
      · subst hb
        simp [inLines]
      · rw [if_neg hb]
        simp only [inLines]
        constructor
        · rintro (⟨h1, h2, rfl⟩ | hIn)
          · refine ⟨by omega, ?_, by have := hcnt q; omega⟩
            intro hEq
            apply hnl
            rw [← hEq]
            have hq : q < buffer.length := by omega
            rw [List.getD_eq_getElem buffer 0 hq]
            exact List.getElem_mem hq
          · cases hIn
        · rintro ⟨h1, h2, h3⟩
          rw [hcnt] at h3
          exact Or.inl ⟨by omega, by omega, by omega⟩

theorem inLines_linesOf (buffer : List Nat) (s m q n : Nat) :
    inLines (linesOf buffer) s m (s + q) n ↔
      (q < buffer.length ∧ buffer.getD q 0 ≠ NEWLINE ∧
        n = m + (buffer.take q).count NEWLINE) :=
  inLines_linesOf_aux buffer.length buffer (Nat.le_refl _) s m q n

theorem invertCollect_mem (matchSet : List Nat) (options : FastGrepOptions)
    (hmax : options.maxCount = 0) :
    ∀ (lines : List (List Nat)) (ln mc : Nat) (results : List GrepLineResult) (n : Nat),
      n ∈ (invertCollect matchSet options lines ln mc results).map (·.lineNumber) ↔
        n ∈ results.map (·.lineNumber) ∨
          ∃ j, j < lines.length ∧ n = ln + j ∧ n ∉ matchSet := by
  intro lines
  induction lines with
  | nil =>
    intro ln mc results n
    simp [invertCollect]
  | cons line rest ih =>
    intro ln mc results n
    simp only [invertCollect]
    split
    · next hnotin =>
      rw [if_neg (by rw [hmax]; simp)]
      rw [ih (ln + 1) (mc + 1) _ n]
      constructor
      · rintro (hmem | ⟨j, hj, hEq, hnm⟩)
        · rw [List.map_append] at hmem
          rcases List.mem_append.mp hmem with hm | hm
          · exact Or.inl hm
          · simp only [List.map_cons, List.map_nil, List.mem_singleton] at hm
            subst hm
            exact Or.inr ⟨0, by simp, by omega, hnotin⟩
        · exact Or.inr ⟨j + 1, by simp only [List.length_cons]; omega, by omega, hnm⟩
      · rintro (hmem | ⟨j, hj, hEq, hnm⟩)
        · refine Or.inl ?_
          rw [List.map_append]
          exact List.mem_append_left _ hmem
        · cases j with
          | zero =>
            refine Or.inl ?_
            rw [List.map_append]
            apply List.mem_append_right
            simp only [List.map_cons, List.map_nil, List.mem_singleton]
            omega
          | succ j' =>
            refine Or.inr ⟨j', ?_, by omega, hnm⟩
            simp only [List.length_cons] at hj
            omega
    · next hin =>
      rw [not_not] at hin
      rw [ih (ln + 1) mc results n]
      constructor
      · rintro (hmem | ⟨j, hj, hEq, hnm⟩)
        · exact Or.inl hmem
        · exact Or.inr ⟨j + 1, by simp only [List.length_cons]; omega, by omega, hnm⟩
      · rintro (hmem | ⟨j, hj, hEq, hnm⟩)
        · exact Or.inl hmem
        · cases j with
          | zero =>
            subst hEq
            exact absurd (by simpa using hin) hnm
          | succ j' =>
            refine Or.inr ⟨j', ?_, by omega, hnm⟩
            simp only [List.length_cons] at hj
            omega

theorem accInsert_mem_map (acc : List LineAcc) (n' : Nat) (c : List Nat) (o n : Nat) :
    n ∈ (accInsert acc n' c o).map (·.lineNumber) ↔
      n ∈ acc.map (·.lineNumber) ∨ n = n' := by
  rw [accInsert_map_lineNumber]
  split
  · next h =>
    constructor
    · exact Or.inl
    · rintro (hn | rfl)
      · exact hn
      · exact h
  · simp [List.mem_append]

theorem fwdLoop_mem (buffer : List Nat) (options : FastGrepOptions)
    (hww : options.wholeWord = false) (hlr : options.lineRegexp = false)
    (hmax : options.maxCount = 0) :
    ∀ (ps : List Nat) (cls cln : Nat) (acc : List LineAcc) (n : Nat),
      ps.Pairwise (· < ·) →
      (∀ p ∈ ps, cls ≤ p ∧ p ≤ buffer.length) →
      cln = 1 + (buffer.take cls).count NEWLINE →
      (n ∈ (fwdLoop buffer options ps cls cln acc).map (·.lineNumber) ↔
        n ∈ acc.map (·.lineNumber) ∨
          ∃ p ∈ ps, n = 1 + (buffer.take p).count NEWLINE) := by
  intro ps
  induction ps with
  | nil =>
    intro cls cln acc n _ _ _
    simp [fwdLoop]
  | cons p rest ih =>
    intro cls cln acc n hsort hval hcln
    have hp := hval p (List.mem_cons_self p rest)
    have hspec := fastForward_spec buffer p cls cln hp.2 hp.1 hcln
    have hsort' := (List.pairwise_cons.mp hsort).2
    have hval' : ∀ q ∈ rest, (fastForward buffer p cls cln).1 ≤ q ∧ q ≤ buffer.length := by
      intro q hq
      have hpq := (List.pairwise_cons.mp hsort).1 q hq
      have hq2 := hval q (List.mem_cons_of_mem p hq)
      have h21 := hspec.2.1
      exact ⟨by omega, hq2.2⟩
    have hcln' : (fastForward buffer p cls cln).2 =
        1 + (buffer.take (fastForward buffer p cls cln).1).count NEWLINE := by
      rw [hspec.1, hspec.2.2]
    simp only [fwdLoop]
    rw [if_neg (by simp [hww])]
    rw [if_neg (by simp [hlr])]
    rw [if_neg (by rw [hmax]; simp)]
    rw [ih _ _ _ n hsort' hval' hcln']
    rw [accInsert_mem_map]
    rw [hspec.1]
    constructor
    · rintro ((hmem | rfl) | ⟨q, hq, hEq⟩)
      · exact Or.inl hmem
      · exact Or.inr ⟨p, List.mem_cons_self p rest, rfl⟩
      · exact Or.inr ⟨q, List.mem_cons_of_mem p hq, hEq⟩
    · rintro (hmem | ⟨q, hq, hEq⟩)
      · exact Or.inl (Or.inl hmem)
      · rcases List.mem_cons.mp hq with rfl | hq'
        · exact Or.inl (Or.inr hEq)
        · exact Or.inr ⟨q, hq', hEq⟩

theorem toLowerAscii_eq_newline_iff (x : Nat) : toLowerAscii x = NEWLINE ↔ x = NEWLINE := by
  simp only [toLowerAscii, NEWLINE]
  split
  · next h => constructor <;> intro <;> omega
  · exact Iff.rfl

theorem findPatternPositions_getD_ne (buffer pattern : List Nat) (p : Nat)
    (hp : p ∈ findPatternPositions buffer pattern)
    (hhead : pattern.head? ≠ some NEWLINE) :
    p < buffer.length ∧ buffer.getD p 0 ≠ NEWLINE := by
  rcases mem_findPatternPositions.mp hp with ⟨hne, hlen, heq⟩
  obtain ⟨p0, pr, rfl⟩ : ∃ p0 pr, pattern = p0 :: pr := by
    cases pattern with
    | nil => exact absurd rfl hne
    | cons a l => exact ⟨a, l, rfl⟩
  have hplen : p < buffer.length := by
    simp only [List.length_cons] at hlen
    omega
  have hdrops : buffer.drop p = buffer[p] :: buffer.drop (p + 1) :=
    List.drop_eq_getElem_cons hplen
  rw [hdrops] at heq
  simp only [List.length_cons, List.take_succ_cons, List.cons.injEq] at heq
  have hp0 : p0 ≠ NEWLINE := by
    intro h
    exact hhead (by simp [h])
  refine ⟨hplen, ?_⟩
  rw [List.getD_eq_getElem buffer 0 hplen, heq.1]
  exact hp0

theorem findPatternPositionsIgnoreCase_getD_ne (buffer pattern : List Nat) (p : Nat)
    (hp : p ∈ findPatternPositionsIgnoreCase buffer pattern)
    (hhead : pattern.head? ≠ some NEWLINE) :
    p < buffer.length ∧ buffer.getD p 0 ≠ NEWLINE := by
  rcases mem_findPatternPositionsIgnoreCase.mp hp with ⟨hne, hlen, heq⟩
  obtain ⟨p0, pr, rfl⟩ : ∃ p0 pr, pattern = p0 :: pr := by
    cases pattern with
    | nil => exact absurd rfl hne
    | cons a l => exact ⟨a, l, rfl⟩
  have hplen : p < buffer.length := by
    simp only [List.length_map, List.length_cons] at hlen
    omega
  have hplen' : p < (buffer.map toLowerAscii).length := by
    rw [List.length_map]
    exact hplen
  have hdrops : (buffer.map toLowerAscii).drop p =
      (buffer.map toLowerAscii)[p] :: (buffer.map toLowerAscii).drop (p + 1) :=
    List.drop_eq_getElem_cons hplen'
  rw [hdrops] at heq
  simp only [List.map_cons, List.length_map, List.length_cons, List.take_succ_cons,
    List.cons.injEq] at heq
  have hp0 : p0 ≠ NEWLINE := by
    intro h
    exact hhead (by simp [h])
  have hgetm : (buffer.map toLowerAscii)[p] = toLowerAscii buffer[p] :=
    List.getElem_map toLowerAscii
  refine ⟨hplen, ?_⟩
  rw [List.getD_eq_getElem buffer 0 hplen]
  intro hEq
  have h1 : toLowerAscii buffer[p] = toLowerAscii p0 := by
    rw [← hgetm, heq.1]
  rw [hEq] at h1
  have h2 : toLowerAscii NEWLINE = NEWLINE := rfl
  rw [h2] at h1
  exact hp0 ((toLowerAscii_eq_newline_iff p0).mp h1.symm)

theorem invertCollect_congr (matchSet : List Nat) (o₁ o₂ : FastGrepOptions)
    (h : o₁.maxCount = o₂.maxCount) :
    ∀ (lines : List (List Nat)) (ln mc : Nat) (results : List GrepLineResult),
      invertCollect matchSet o₁ lines ln mc results =
        invertCollect matchSet o₂ lines ln mc results := by
  intro lines
  induction lines with
  | nil => intro ln mc results; rfl
  | cons line rest ih =>
    intro ln mc results
    simp only [invertCollect, h]
    split
    · split
      · rfl
      · exact ih _ _ _
    · exact ih _ _ _

/-- C4 counterexample: on buffer `"a\nb\n"` with the literal pattern `"\n"`
(a pattern whose first byte is a newline), all other flags off and
`maxCount = 0`, line 1 is returned both with `invertMatch = false` and with
`invertMatch = true`: the forward pass assigns a match starting on a
newline byte to the line that the newline terminates, while the invert
pass's match-set loop drops such a position, so the two result sets are not
complementary. -/
theorem invert_complement_cex :
    1 ∈ (grepBufferLiteral (strBytes "a\nb\n") (optsLit [10])).map (·.lineNumber)
    ∧ 1 ∈ (grepBufferLiteral (strBytes "a\nb\n")
        { optsLit [10] with invertMatch := true }).map (·.lineNumber) := by
  decide

/-- C4 (amended): for every buffer and literal pattern whose first byte is
not a newline, with `wholeWord`, `lineRegexp` and `onlyMatching` unset and
`maxCount = 0`, the set of line numbers returned with `invertMatch = true`
is exactly the complement, within the buffer's line numbers (1-based, a
final unterminated non-empty line counting as a line — `linesOf`), of the
set of line numbers returned with `invertMatch = false`; moreover the
inverted result is determined by raw pattern occurrence only: it does not
change when `wholeWord` or `lineRegexp` are toggled. -/
theorem invert_complement_amended (options : FastGrepOptions) (buffer : List Nat)
    (hww : options.wholeWord = false) (hlr : options.lineRegexp = false)
    (hom : options.onlyMatching = false) (hmax : options.maxCount = 0)
    (hhead : options.pattern.head? ≠ some NEWLINE) :
    (∀ n, n ∈ (grepBufferLiteral buffer
        { options with invertMatch := true }).map (·.lineNumber) ↔
      (1 ≤ n ∧ n ≤ (linesOf buffer).length ∧
        n ∉ (grepBufferLiteral buffer
          { options with invertMatch := false }).map (·.lineNumber)))
    ∧ (∀ w lr : Bool,
        grepBufferLiteral buffer
            { options with invertMatch := true, wholeWord := w, lineRegexp := lr } =
          grepBufferLiteral buffer { options with invertMatch := true }) := by
  have hsortP : ∀ pat : List Nat, (if options.ignoreCase = true then
      findPatternPositionsIgnoreCase buffer pat
      else findPatternPositions buffer pat).Pairwise (· < ·) := by
    intro pat
    split
    · exact findPatternPositionsIgnoreCase_sorted buffer pat
    · exact findPatternPositions_sorted buffer pat
  have hvalidP : ∀ p ∈ (if options.ignoreCase = true then
      findPatternPositionsIgnoreCase buffer options.pattern
      else findPatternPositions buffer options.pattern),
      p < buffer.length ∧ buffer.getD p 0 ≠ NEWLINE := by
    intro p hp
    split at hp
    · exact findPatternPositionsIgnoreCase_getD_ne buffer options.pattern p hp hhead
    · exact findPatternPositions_getD_ne buffer options.pattern p hp hhead
  have hbridge : ∀ p n, p < buffer.length → buffer.getD p 0 ≠ NEWLINE →
      (inLines (linesOf buffer) 0 1 p n ↔
        n = 1 + (buffer.take p).count NEWLINE) := by
    intro p n h1 h2
    have h := inLines_linesOf buffer 0 1 p n
    simp only [Nat.zero_add] at h
    rw [h]
    constructor
    · rintro ⟨_, _, h3⟩
      omega
    · intro h3
      exact ⟨h1, h2, by omega⟩
  have hms : ∀ (positions : List Nat), positions.Pairwise (· < ·) →
      (∀ p ∈ positions, p < buffer.length ∧ buffer.getD p 0 ≠ NEWLINE) →
      ∀ n, n ∈ msLoop (linesOf buffer) 0 1 positions [] ↔
        ∃ p ∈ positions, n = 1 + (buffer.take p).count NEWLINE := by
    intro positions hsort hvalid n
    have hin : ∀ p ∈ positions, ∃ n', inLines (linesOf buffer) 0 1 p n' := by
      intro p hp
      exact ⟨1 + (buffer.take p).count NEWLINE,
        (hbridge p _ (hvalid p hp).1 (hvalid p hp).2).mpr rfl⟩
    rw [msLoop_mem (linesOf buffer) 0 1 positions [] n hsort hin]
    simp only [List.not_mem_nil, false_or]
    constructor
    · rintro ⟨p, hp, hIn⟩
      exact ⟨p, hp, (hbridge p n (hvalid p hp).1 (hvalid p hp).2).mp hIn⟩
    · rintro ⟨p, hp, hEq⟩
      exact ⟨p, hp, (hbridge p n (hvalid p hp).1 (hvalid p hp).2).mpr hEq⟩
  have hinvmem : ∀ (o : FastGrepOptions) (positions : List Nat),
      o.maxCount = 0 →
      positions.Pairwise (· < ·) →
      (∀ p ∈ positions, p < buffer.length ∧ buffer.getD p 0 ≠ NEWLINE) →
      ∀ n, n ∈ (grepBufferInvert buffer positions o).map (·.lineNumber) ↔
        (1 ≤ n ∧ n ≤ (linesOf buffer).length ∧
          ¬ ∃ p ∈ positions, n = 1 + (buffer.take p).count NEWLINE) := by
    intro o positions ho hsort hvalid n
    unfold grepBufferInvert
    rw [invertCollect_mem _ o ho (linesOf buffer) 1 0 [] n]
    simp only [List.map_nil, List.not_mem_nil, false_or]
    constructor
    · rintro ⟨j, hj, hEq, hnm⟩
      refine ⟨by omega, by omega, ?_⟩
      intro hex
      exact hnm ((hms positions hsort hvalid n).mpr hex)
    · rintro ⟨h1, h2, hnex⟩
      exact ⟨n - 1, by omega, by omega,
        fun hmem => hnex ((hms positions hsort hvalid n).mp hmem)⟩
  constructor
  · intro n
    simp only [grepBufferLiteral]
    rw [if_pos trivial, if_neg (show ¬(false = true) by simp)]
    have hfwdmap : ∀ (L : List LineAcc),
        (L.map fun m =>
          if options.onlyMatching = true then
            (⟨m.lineNumber, options.pattern, none⟩ : GrepLineResult)
          else ⟨m.lineNumber, m.content, none⟩).map (·.lineNumber) =
        L.map (·.lineNumber) := by
      intro L
      rw [List.map_map]
      apply List.map_congr_left
      intro m _
      simp only [Function.comp_apply]
      split <;> rfl
    rw [hfwdmap]
    rw [hinvmem { options with invertMatch := true } _ hmax (hsortP options.pattern)
      hvalidP n]
    rw [fwdLoop_mem buffer { options with invertMatch := false } hww hlr hmax _ 0 1 [] n
      (hsortP options.pattern)
      (fun p hp => ⟨Nat.zero_le p, Nat.le_of_lt (hvalidP p hp).1⟩) (by simp)]
    simp only [List.map_nil, List.not_mem_nil, false_or]
  · intro w lr
    simp only [grepBufferLiteral]
    rw [if_pos trivial, if_pos trivial]
    unfold grepBufferInvert
    exact invertCollect_congr _
      { options with invertMatch := true, wholeWord := w, lineRegexp := lr }
      { options with invertMatch := true } rfl _ _ _ _

theorem invert_complement_amended_witness :
    1 ∈ (grepBufferLiteral (strBytes "a\nb\nc\n")
        { optsLit (strBytes "b") with invertMatch := true }).map (·.lineNumber) ↔
      (1 ≤ 1 ∧ 1 ≤ (linesOf (strBytes "a\nb\nc\n")).length ∧
        1 ∉ (grepBufferLiteral (strBytes "a\nb\nc\n")
          { optsLit (strBytes "b") with invertMatch := false }).map (·.lineNumber)) :=
  (invert_complement_amended (optsLit (strBytes "b")) (strBytes "a\nb\nc\n")
    rfl rfl rfl rfl (by decide)).1 1

end FastGrep
